import Mathlib

/-!
Verification of the `fcode` binary codec (a compact, schema-less serde wire
format).  Byte sequences are modelled as `List Nat` (each element a byte value
below 256), machine integers as `Nat`/`Int` with explicit reduction modulo
`2 ^ w` where the Rust code can wrap, and fallible operations return
`Except Err`.  The definitions follow `src/wire.rs`, `src/ser.rs`, `src/de.rs`
and `src/lib.rs`; bit operations `x & 15`, `x >> 4`, `x >> 3`, `x & 0x7f` on
bytes are rendered as `x % 16`, `x / 16`, `x / 8`, `x % 128`, the tag test
`x & 0x80 == 0` on a `u8` as `x < 128`, and `a | b` on disjoint bit ranges as
`a + b`.
-/

namespace Fcode

/-- Error enumeration from `src/error.rs` (the `IO` variant, which carries a
host I/O error, is omitted; the in-memory paths modelled here never raise it). -/
inductive Err where
  | UnexpectedEndOfInput
  | InvalidChar
  | InvalidUtf8
  | DataBeyondEnd
  | ValueOverflow
  | UnexpectedWireType
  | InvalidMap
  | Serialization (msg : String)
  | Deserialization (msg : String)
deriving DecidableEq, Repr

/-- Wire types from `src/wire.rs` (`#[repr(u8)] enum WireType`). -/
inductive WireType where
  | Int
  | Fixed32
  | Fixed64
  | Sequence
  | Bytes
  | Variant
  | Reserved1
  | Reserved2
deriving DecidableEq, Repr

/-- The `u8` discriminant of a wire type (`WireType as u8`). -/
def WireType.toNat : WireType → Nat
  | .Int => 0
  | .Fixed32 => 1
  | .Fixed64 => 2
  | .Sequence => 3
  | .Bytes => 4
  | .Variant => 5
  | .Reserved1 => 6
  | .Reserved2 => 7

/-- `read_wiretype` from `src/wire.rs`: `tagbyte & 7` transmuted to `WireType`
(every value 0–7 is a valid wire type). -/
def read_wiretype (tagbyte : Nat) : WireType :=
  match tagbyte % 8 with
  | 0 => .Int
  | 1 => .Fixed32
  | 2 => .Fixed64
  | 3 => .Sequence
  | 4 => .Bytes
  | 5 => .Variant
  | 6 => .Reserved1
  | _ => .Reserved2

/-- The continuation-byte loop of `write_varint` in `src/wire.rs`: emit the
remaining value 7 bits at a time, stop bit (`0x80`) set on all but the last
byte. -/
def varint_cont (value : Nat) : List Nat :=
  let part := value % 128
  let v := value / 128
  if v = 0 then [part] else (part + 128) :: varint_cont v
termination_by value
decreasing_by
  simp only [v] at *
  omega

/-- `write_varint` from `src/wire.rs`: pack the wire type in bits 0–2 and the
low 4 bits of the value in bits 3–6 of the tag byte; if the rest of the value
is zero emit that single byte, otherwise set bit 7 and emit continuation
bytes.  The writer side-effect is modelled by returning the byte list. -/
def write_varint (tag : WireType) (value : Nat) : List Nat :=
  let t := tag.toNat
  let part := (value % 16) * 8
  let v := value / 16
  if v = 0 then [t + part] else (t + part + 128) :: varint_cont v

/-- The accumulation loop of `read_varint` in `src/wire.rs`.  `value` is the
`u64` accumulator, `shift` the current shift, `consumed` the running count of
bytes taken from `data`.  `value |= (b & 0x7f) << shift` on `u64` is modelled
by adding the contribution and reducing modulo `2 ^ 64` (the accumulator holds
only bits below `shift`, so `|` is `+`, and the shift discards bits ≥ 64). -/
def read_varint_loop : List Nat → Nat → Nat → Nat → Except Err (Nat × Nat)
  | [], _, _, _ => .error .UnexpectedEndOfInput
  | b :: rest, value, shift, consumed =>
    if 64 ≤ shift then .error .ValueOverflow
    else if b % 256 < 128 then .ok ((value + (b % 256) * 2 ^ shift) % 2 ^ 64, consumed + 1)
    else read_varint_loop rest ((value + (b % 128) * 2 ^ shift) % 2 ^ 64) (shift + 7) (consumed + 1)

/-- `read_varint` from `src/wire.rs`: if the tag byte has no continuation bit
the payload is `tagbyte >> 3`; otherwise start from bits 3–6 at shift 4 and
accumulate 7-bit groups.  Returns the value and the byte count consumed from
`data`. -/
def read_varint (tagbyte : Nat) (data : List Nat) : Except Err (Nat × Nat) :=
  if tagbyte % 256 < 128 then .ok ((tagbyte % 256) / 8, 0)
  else read_varint_loop data ((tagbyte % 128) / 8) 4 0

/-- The accumulation loop of `read_varint_128` in `src/wire.rs` (`u128`
accumulator, overflow check at shift 128). -/
def read_varint_128_loop : List Nat → Nat → Nat → Nat → Except Err (Nat × Nat)
  | [], _, _, _ => .error .UnexpectedEndOfInput
  | b :: rest, value, shift, consumed =>
    if 128 ≤ shift then .error .ValueOverflow
    else if b % 256 < 128 then .ok ((value + (b % 256) * 2 ^ shift) % 2 ^ 128, consumed + 1)
    else read_varint_128_loop rest ((value + (b % 128) * 2 ^ shift) % 2 ^ 128) (shift + 7) (consumed + 1)

/-- `read_varint_128` from `src/wire.rs`. -/
def read_varint_128 (tagbyte : Nat) (data : List Nat) : Except Err (Nat × Nat) :=
  if tagbyte % 256 < 128 then .ok ((tagbyte % 256) / 8, 0)
  else read_varint_128_loop data ((tagbyte % 128) / 8) 4 0

/-- The scanning loop of `skip_varint` in `src/wire.rs`: index `i` runs over
`data`; reaching index 18 means 19 bytes including the tag byte, beyond the
largest 128-bit varint. -/
def skip_varint_loop : Nat → List Nat → Except Err Nat
  | _, [] => .error .UnexpectedEndOfInput
  | i, b :: rest =>
    if i = 18 then .error .ValueOverflow
    else if b % 256 < 128 then .ok (i + 1)
    else skip_varint_loop (i + 1) rest

/-- `skip_varint` from `src/wire.rs`: number of bytes of `data` belonging to
the varint whose tag byte is `tagbyte` (0 when the stop bit is already clear). -/
def skip_varint (tagbyte : Nat) (data : List Nat) : Except Err Nat :=
  if tagbyte % 256 < 128 then .ok 0
  else skip_varint_loop 0 data

/-- Two's-complement `u64` view of an `i64` value (reinterpretation cast
`as u64` for a value in the `i64` range). -/
def i64toU64 (v : Int) : Nat := (v % (2 : Int) ^ 64).toNat

/-- Two's-complement `i64` view of a `u64` value (reinterpretation cast
`as i64`). -/
def u64toI64 (n : Nat) : Int :=
  if n < 2 ^ 63 then (n : Int) else (n : Int) - 2 ^ 64

/-- `zigzag_encode` from `src/wire.rs`: `((value << 1) ^ (value >> 63)) as u64`.
`value << 1` is the wrapping double (reduced by `i64toU64`), and the arithmetic
shift `value >> 63` of an `i64` is `0` for non-negative and `-1` for negative
values; the `i64` XOR acts on the two's-complement bit patterns. -/
def zigzag_encode (value : Int) : Nat :=
  i64toU64 (value * 2) ^^^ i64toU64 (if value < 0 then -1 else 0)

/-- `zigzag_decode` from `src/wire.rs`:
`(encoded >> 1) as i64 ^ -(encoded as i64 & 1)`.  `encoded as i64 & 1` is the
low bit `encoded % 2`, and the `i64` XOR is again performed on bit patterns. -/
def zigzag_decode (encoded : Nat) : Int :=
  u64toI64 ((encoded / 2) ^^^ i64toU64 (-(((encoded % 2 : Nat)) : Int)))

/-!
The decoder (`src/de.rs`).  A `Deserializer` is an immutable byte slice with a
cursor; we model its state as the list of remaining bytes, and each operation
returns the remaining bytes after it.  `Deserializer::skip` and the `n`-fold
skip of sequence children are mutually recursive; the auxiliary versions carry
the proof that at least the tag byte was consumed, which bounds the recursion.
-/

mutual

/-- `Deserializer::skip` from `src/de.rs`: read one tag byte and dispatch on
its wire type (Int: drop the varint bytes; Fixed32/Fixed64: drop 4/8 bytes;
Sequence: read the length and skip that many children; Bytes: read the length
and drop that many bytes; Variant: read the discriminant and skip one child;
reserved: `UnexpectedWireType`).  Returns the remaining input, together with
the fact that it shrank (the tag byte is always consumed). -/
def skipAux : (input : List Nat) → Except Err { out : List Nat // out.length < input.length }
  | [] => .error .UnexpectedEndOfInput
  | tagbyte :: data =>
    match read_wiretype tagbyte with
    | .Int =>
      match skip_varint tagbyte data with
      | .error e => .error e
      | .ok len => .ok ⟨data.drop len, by simp; omega⟩
    | .Fixed32 =>
      if 4 ≤ data.length then .ok ⟨data.drop 4, by simp; omega⟩
      else .error .UnexpectedEndOfInput
    | .Fixed64 =>
      if 8 ≤ data.length then .ok ⟨data.drop 8, by simp; omega⟩
      else .error .UnexpectedEndOfInput
    | .Sequence =>
      match read_varint tagbyte data with
      | .error e => .error e
      | .ok (len, c) =>
        match skipNAux len (data.drop c) with
        | .error e => .error e
        | .ok ⟨out, h⟩ => .ok ⟨out, by simp at h ⊢; omega⟩
    | .Bytes =>
      match read_varint tagbyte data with
      | .error e => .error e
      | .ok (len, c) =>
        if len ≤ (data.drop c).length then .ok ⟨(data.drop c).drop len, by simp; omega⟩
        else .error .UnexpectedEndOfInput
    | .Variant =>
      match read_varint tagbyte data with
      | .error e => .error e
      | .ok (_, c) =>
        match skipAux (data.drop c) with
        | .error e => .error e
        | .ok ⟨out, h⟩ => .ok ⟨out, by simp at h ⊢; omega⟩
    | .Reserved1 => .error .UnexpectedWireType
    | .Reserved2 => .error .UnexpectedWireType
termination_by input => (input.length, 0, 0)
decreasing_by
  all_goals simp_wf
  all_goals simp [Prod.lex_iff]
  all_goals omega

/-- The child loop of the `Sequence` arm of `Deserializer::skip`
(`for _ in 0..len { self.skip()?; }`). -/
def skipNAux : (n : Nat) → (input : List Nat) → Except Err { out : List Nat // out.length ≤ input.length }
  | 0, input => .ok ⟨input, Nat.le_refl _⟩
  | n + 1, input =>
    match skipAux input with
    | .error e => .error e
    | .ok ⟨out, h⟩ =>
      match skipNAux n out with
      | .error e => .error e
      | .ok ⟨out2, h2⟩ => .ok ⟨out2, by omega⟩
termination_by n input => (input.length, 1, n)
decreasing_by
  all_goals simp_wf
  all_goals simp [Prod.lex_iff]
  all_goals omega

end

/-- `Deserializer::skip`, forgetting the length bound: the remaining input
after skipping one encoded value. -/
def Deserializer.skip (input : List Nat) : Except Err (List Nat) :=
  (skipAux input).map Subtype.val

/-- Skipping `n` encoded values in sequence. -/
def Deserializer.skipN (n : Nat) (input : List Nat) : Except Err (List Nat) :=
  (skipNAux n input).map Subtype.val

/-!
`Deserializer::skip` mutates the deserializer's cursor in place, and every
read consumes its bytes *before* a later step can fail: `read_byte` always
takes the tag byte, `read_varint` consumes the varint bytes on success, and a
failing bounds check consumes nothing further.  Callers that propagate the
error with `?` never look at the cursor again, so `Deserializer.skip` above
models only the successful result; but `impl Drop for SeqRead` *does* observe
the cursor after a failed skip (it breaks out of its drain loop and decoding
continues from wherever the failed skip stopped).  `skipStAux`/`skipNStAux`
therefore model the same source code with its cursor side effect: they return
the result together with the final remaining input, which on error is exactly
as far as the failed skip advanced.
-/

mutual

/-- `Deserializer::skip` from `src/de.rs` with its cursor side effect: the
same dispatch as `skipAux`, arm by arm, but also returning the remaining
input on error.  The tag byte is consumed by `read_byte` before any dispatch;
`skip_varint`/`read_varint` failures consume nothing beyond what they already
took; a failing `read`/`read_32`/`read_64` bounds check consumes nothing;
nested skips leave the cursor wherever they stopped. -/
def skipStAux : (input : List Nat) → Except Err Unit × { out : List Nat // out.length ≤ input.length }
  | [] => (.error .UnexpectedEndOfInput, ⟨[], Nat.le_refl _⟩)
  | tagbyte :: data =>
    match read_wiretype tagbyte with
    | .Int =>
      match skip_varint tagbyte data with
      | .error e => (.error e, ⟨data, by simp⟩)
      | .ok len => (.ok (), ⟨data.drop len, by simp; omega⟩)
    | .Fixed32 =>
      if 4 ≤ data.length then (.ok (), ⟨data.drop 4, by simp; omega⟩)
      else (.error .UnexpectedEndOfInput, ⟨data, by simp⟩)
    | .Fixed64 =>
      if 8 ≤ data.length then (.ok (), ⟨data.drop 8, by simp; omega⟩)
      else (.error .UnexpectedEndOfInput, ⟨data, by simp⟩)
    | .Sequence =>
      match read_varint tagbyte data with
      | .error e => (.error e, ⟨data, by simp⟩)
      | .ok (len, c) =>
        match skipNStAux len (data.drop c) with
        | (r, ⟨out, h⟩) => (r, ⟨out, by simp at h ⊢; omega⟩)
    | .Bytes =>
      match read_varint tagbyte data with
      | .error e => (.error e, ⟨data, by simp⟩)
      | .ok (len, c) =>
        if len ≤ (data.drop c).length then (.ok (), ⟨(data.drop c).drop len, by simp; omega⟩)
        else (.error .UnexpectedEndOfInput, ⟨data.drop c, by simp; omega⟩)
    | .Variant =>
      match read_varint tagbyte data with
      | .error e => (.error e, ⟨data, by simp⟩)
      | .ok (_, c) =>
        match skipStAux (data.drop c) with
        | (r, ⟨out, h⟩) => (r, ⟨out, by simp at h ⊢; omega⟩)
    | .Reserved1 => (.error .UnexpectedWireType, ⟨data, by simp⟩)
    | .Reserved2 => (.error .UnexpectedWireType, ⟨data, by simp⟩)
termination_by input => (input.length, 0, 0)
decreasing_by
  all_goals simp_wf
  all_goals simp [Prod.lex_iff]
  all_goals omega

/-- The child loop of the `Sequence` arm with its cursor side effect: a
failing child skip propagates its error (`self.skip()?`) with the cursor
wherever that child stopped. -/
def skipNStAux : (n : Nat) → (input : List Nat) → Except Err Unit × { out : List Nat // out.length ≤ input.length }
  | 0, input => (.ok (), ⟨input, Nat.le_refl _⟩)
  | n + 1, input =>
    match skipStAux input with
    | (.error e, ⟨out, h⟩) => (.error e, ⟨out, h⟩)
    | (.ok _, ⟨out, h⟩) =>
      match skipNStAux n out with
      | (r, ⟨out2, h2⟩) => (r, ⟨out2, by omega⟩)
termination_by n input => (input.length, 1, n)
decreasing_by
  all_goals simp_wf
  all_goals simp [Prod.lex_iff]
  all_goals omega

end

/-- `Deserializer::skip` as a state transformer: the result and the final
cursor (remaining input), which on error is wherever the failed skip left
the deserializer. -/
def Deserializer.skip_state (input : List Nat) : Except Err Unit × List Nat :=
  ((skipStAux input).1, (skipStAux input).2.val)

/-- `impl Drop for SeqRead` from `src/de.rs`: on teardown of a child reader,
skip the `nread` elements not yet consumed, one at a time, stopping (and
discarding the error) as soon as a skip fails.  Teardown itself cannot fail:
it returns the remaining input, and on a failed skip the cursor stays
wherever that skip stopped (the failed skip's partial consumption is kept,
it is not rolled back). -/
def SeqRead.drop_drain (nread : Nat) (input : List Nat) : List Nat :=
  match nread with
  | 0 => input
  | n + 1 =>
    match Deserializer.skip_state input with
    | (.error _, out) => out
    | (.ok _, out) => SeqRead.drop_drain n out

/-- Little-endian `u32` from four bytes (`u32::from_le_bytes`). -/
def u32_from_le (b0 b1 b2 b3 : Nat) : Nat :=
  b0 % 256 + (b1 % 256) * 2 ^ 8 + (b2 % 256) * 2 ^ 16 + (b3 % 256) * 2 ^ 24

/-- Little-endian `u64` from eight bytes (`u64::from_le_bytes`). -/
def u64_from_le (b0 b1 b2 b3 b4 b5 b6 b7 : Nat) : Nat :=
  b0 % 256 + (b1 % 256) * 2 ^ 8 + (b2 % 256) * 2 ^ 16 + (b3 % 256) * 2 ^ 24 +
    (b4 % 256) * 2 ^ 32 + (b5 % 256) * 2 ^ 40 + (b6 % 256) * 2 ^ 48 + (b7 % 256) * 2 ^ 56

/-- Two's-complement `i32` view of a `u32` bit pattern. -/
def u32toI32 (n : Nat) : Int :=
  if n < 2 ^ 31 then (n : Int) else (n : Int) - 2 ^ 32

/-- `Serializer::serialize_i32` from `src/ser.rs`: widen to `i64` (the
identity on the mathematical value), zig-zag encode, and write an `Int`-tagged
varint. -/
def serialize_i32 (v : Int) : List Nat :=
  write_varint .Int (zigzag_encode v)

/-- `Deserializer::deserialize_i32` from `src/de.rs`: an `Int` tag gives a
zig-zag-decoded varint narrowed to `i32` (`ValueOverflow` if out of range,
via `TryFromIntError`); a `Fixed32` tag gives 4 little-endian two's-complement
bytes; anything else is `UnexpectedWireType`. -/
def deserialize_i32 (input : List Nat) : Except Err (Int × List Nat) :=
  match input with
  | [] => .error .UnexpectedEndOfInput
  | tagbyte :: data =>
    match read_wiretype tagbyte with
    | .Int =>
      match read_varint tagbyte data with
      | .error e => .error e
      | .ok (w, c) =>
        let x := zigzag_decode w
        if -(2 ^ 31) ≤ x ∧ x < 2 ^ 31 then .ok (x, data.drop c) else .error .ValueOverflow
    | .Fixed32 =>
      match data with
      | b0 :: b1 :: b2 :: b3 :: rest => .ok (u32toI32 (u32_from_le b0 b1 b2 b3), rest)
      | _ => .error .UnexpectedEndOfInput
    | _ => .error .UnexpectedWireType

/-- serde-derived `Serialize` for `struct { x: i32, y: i32 }`:
`serialize_struct(2)` emits a Sequence header of length 2, then the two fields
in declaration order (`src/ser.rs`). -/
def encode_struct2 (x y : Int) : List Nat :=
  write_varint .Sequence 2 ++ serialize_i32 x ++ serialize_i32 y

/-- serde-derived `Serialize` for `struct { x: i32, y: i32, z: i32 }`:
Sequence header of length 3, then the three fields. -/
def encode_struct3 (x y z : Int) : List Nat :=
  write_varint .Sequence 3 ++ serialize_i32 x ++ serialize_i32 y ++ serialize_i32 z

/-- serde-derived `Deserialize` for `struct { x: i32, y: i32 }` driven by
`deserialize_struct`/`deserialize_tuple` from `src/de.rs`: the tag must be
`Sequence`; its length `n` is read; the child reader returns `min n 2`
elements, the derived visitor requires both fields (`Deserialization` error
when `next_element` runs dry), and on teardown the child reader drains the
`n - 2` unread elements. -/
def decode_struct2 (input : List Nat) : Except Err ((Int × Int) × List Nat) :=
  match input with
  | [] => .error .UnexpectedEndOfInput
  | tagbyte :: data =>
    match read_wiretype tagbyte with
    | .Sequence =>
      match read_varint tagbyte data with
      | .error e => .error e
      | .ok (n, c) =>
        let rest := data.drop c
        if n = 0 then .error (.Deserialization "invalid length")
        else
          match deserialize_i32 rest with
          | .error e => .error e
          | .ok (x, r1) =>
            if n = 1 then .error (.Deserialization "invalid length")
            else
              match deserialize_i32 r1 with
              | .error e => .error e
              | .ok (y, r2) => .ok ((x, y), SeqRead.drop_drain (n - 2) r2)
    | _ => .error .UnexpectedWireType

/-- serde-derived `Deserialize` for
`struct { x: i32, y: i32, #[serde(default)] z: i32 }`: as for the two-field
struct, but a missing third element is replaced by the default `0` instead of
an error, and on teardown the child reader drains the unread elements. -/
def decode_struct3d (input : List Nat) : Except Err ((Int × Int × Int) × List Nat) :=
  match input with
  | [] => .error .UnexpectedEndOfInput
  | tagbyte :: data =>
    match read_wiretype tagbyte with
    | .Sequence =>
      match read_varint tagbyte data with
      | .error e => .error e
      | .ok (n, c) =>
        let rest := data.drop c
        if n = 0 then .error (.Deserialization "invalid length")
        else
          match deserialize_i32 rest with
          | .error e => .error e
          | .ok (x, r1) =>
            if n = 1 then .error (.Deserialization "invalid length")
            else
              match deserialize_i32 r1 with
              | .error e => .error e
              | .ok (y, r2) =>
                if n = 2 then .ok ((x, y, 0), r2)
                else
                  match deserialize_i32 r2 with
                  | .error e => .error e
                  | .ok (z, r3) => .ok ((x, y, z), SeqRead.drop_drain (n - 3) r3)
    | _ => .error .UnexpectedWireType

/-- The header phase of `Deserializer::deserialize_map` from `src/de.rs`: the
tag must be `Sequence`, the length `n` must be even (`InvalidMap` otherwise),
and the child reader is created with `nread = n` and `nreturn = n / 2` (the
number of key–value entries exposed to the framework).  Returns
`(nread, nreturn, remaining input)`. -/
def deserialize_map_header (input : List Nat) : Except Err (Nat × Nat × List Nat) :=
  match input with
  | [] => .error .UnexpectedEndOfInput
  | tagbyte :: data =>
    match read_wiretype tagbyte with
    | .Sequence =>
      match read_varint tagbyte data with
      | .error e => .error e
      | .ok (n, c) =>
        if n % 2 ≠ 0 then .error .InvalidMap
        else .ok (n, n / 2, data.drop c)
    | _ => .error .UnexpectedWireType

/-- `Deserializer::deserialize_option` from `src/de.rs` instantiated at
`Option<i32>`: the tag must be `Variant`; a zero discriminant skips one child
value and yields `None`; any non-zero discriminant recurses into the child as
`Some` (`visit_some`). -/
def deserialize_option_i32 (input : List Nat) : Except Err (Option Int × List Nat) :=
  match input with
  | [] => .error .UnexpectedEndOfInput
  | tagbyte :: data =>
    match read_wiretype tagbyte with
    | .Variant =>
      match read_varint tagbyte data with
      | .error e => .error e
      | .ok (b, c) =>
        let rest := data.drop c
        if b = 0 then
          match Deserializer.skip rest with
          | .error e => .error e
          | .ok out => .ok (none, out)
        else
          match deserialize_i32 rest with
          | .error e => .error e
          | .ok (v, out) => .ok (some v, out)
    | _ => .error .UnexpectedWireType

/-!
A universe of supported serde types and values, covering the data-model
constructs whose encode/decode paths live entirely in `src/ser.rs` and
`src/de.rs`: unsigned and signed 64-bit integers, booleans, byte strings,
options, fixed-arity tuples/structs and variable-length sequences.  `encode`
is the serializer walk, `decode` the type-directed deserializer walk.
-/

/-- Shapes of supported types (the declared type known to the framework). -/
inductive FTy where
  | u64
  | i64
  | bool
  | bytesT
  | option (t : FTy)
  | tuple (ts : List FTy)
  | seq (t : FTy)

/-- Values of supported types. -/
inductive FValue where
  | vU64 (n : Nat)
  | vI64 (v : Int)
  | vBool (b : Bool)
  | vBytes (bs : List Nat)
  | vOption (o : Option FValue)
  | vTuple (fs : List FValue)
  | vSeq (xs : List FValue)

/-- Typing of values: the side conditions are the Rust type invariants
(`u64`/`i64` ranges, `u8` bytes, lengths expressible as `u64`). -/
inductive HasTy : FValue → FTy → Prop where
  | u64 {n : Nat} : n < 2 ^ 64 → HasTy (.vU64 n) .u64
  | i64 {v : Int} : -(2 ^ 63) ≤ v → v < 2 ^ 63 → HasTy (.vI64 v) .i64
  | bool {b : Bool} : HasTy (.vBool b) .bool
  | bytes {bs : List Nat} : bs.length < 2 ^ 64 → (∀ b ∈ bs, b < 256) →
      HasTy (.vBytes bs) .bytesT
  | noneV {t : FTy} : HasTy (.vOption none) (.option t)
  | someV {x : FValue} {t : FTy} : HasTy x t → HasTy (.vOption (some x)) (.option t)
  | tuple {fs : List FValue} {ts : List FTy} :
      (∀ p ∈ List.zip fs ts, HasTy p.1 p.2) → fs.length = ts.length →
      fs.length < 2 ^ 64 → HasTy (.vTuple fs) (.tuple ts)
  | seq {xs : List FValue} {t : FTy} :
      (∀ x ∈ xs, HasTy x t) → xs.length < 2 ^ 64 → HasTy (.vSeq xs) (.seq t)

mutual

/-- The serializer walk (`src/ser.rs`): primitives emit varints with wire type
`Int` (signed ones zig-zag encoded, `bool` as 0/1), byte strings emit a
`Bytes`-tagged length then the raw bytes, `None` emits `Variant(0)` followed
by a unit (`Int` varint 0), `Some(x)` emits `Variant(1)` followed by `x`, and
tuples/structs/sequences emit a `Sequence`-tagged length then the children. -/
def encode : FValue → List Nat
  | .vU64 n => write_varint .Int n
  | .vI64 v => write_varint .Int (zigzag_encode v)
  | .vBool b => write_varint .Int (if b then 1 else 0)
  | .vBytes bs => write_varint .Bytes bs.length ++ bs
  | .vOption none => write_varint .Variant 0 ++ write_varint .Int 0
  | .vOption (some x) => write_varint .Variant 1 ++ encode x
  | .vTuple fs => write_varint .Sequence fs.length ++ encodeList fs
  | .vSeq xs => write_varint .Sequence xs.length ++ encodeList xs

/-- Children of a composite, encoded back-to-back. -/
def encodeList : List FValue → List Nat
  | [] => []
  | x :: xs => encode x ++ encodeList xs

end

/-- `deserialize_u64` from `src/de.rs`: wire type `Int` reads a varint,
`Fixed64` reads 8 little-endian bytes, anything else is
`UnexpectedWireType`.  (Shared by the `u64` and `bool` paths, as
`deserialize_bool` delegates to the `u64` deserializer.) -/
def deserialize_u64_wire (input : List Nat) : Except Err (Nat × List Nat) :=
  match input with
  | [] => .error .UnexpectedEndOfInput
  | tagbyte :: data =>
    match read_wiretype tagbyte with
    | .Int =>
      match read_varint tagbyte data with
      | .error e => .error e
      | .ok (v, c) => .ok (v, data.drop c)
    | .Fixed64 =>
      match data with
      | b0 :: b1 :: b2 :: b3 :: b4 :: b5 :: b6 :: b7 :: rest =>
        .ok (u64_from_le b0 b1 b2 b3 b4 b5 b6 b7, rest)
      | _ => .error .UnexpectedEndOfInput
    | _ => .error .UnexpectedWireType

/-- `deserialize_i64` from `src/de.rs`: wire type `Int` zig-zag decodes a
varint, `Fixed64` takes 8 bytes as little-endian two's complement. -/
def deserialize_i64_wire (input : List Nat) : Except Err (Int × List Nat) :=
  match input with
  | [] => .error .UnexpectedEndOfInput
  | tagbyte :: data =>
    match read_wiretype tagbyte with
    | .Int =>
      match read_varint tagbyte data with
      | .error e => .error e
      | .ok (v, c) => .ok (zigzag_decode v, data.drop c)
    | .Fixed64 =>
      match data with
      | b0 :: b1 :: b2 :: b3 :: b4 :: b5 :: b6 :: b7 :: rest =>
        .ok (u64toI64 (u64_from_le b0 b1 b2 b3 b4 b5 b6 b7), rest)
      | _ => .error .UnexpectedEndOfInput
    | _ => .error .UnexpectedWireType

/-- `deserialize_bytes` from `src/de.rs`: the tag must be `Bytes`; read the
length varint, then borrow that many raw bytes. -/
def deserialize_bytes_wire (input : List Nat) : Except Err (List Nat × List Nat) :=
  match input with
  | [] => .error .UnexpectedEndOfInput
  | tagbyte :: data =>
    match read_wiretype tagbyte with
    | .Bytes =>
      match read_varint tagbyte data with
      | .error e => .error e
      | .ok (len, c) =>
        let rest := data.drop c
        if len ≤ rest.length then .ok (rest.take len, rest.drop len)
        else .error .UnexpectedEndOfInput
    | _ => .error .UnexpectedWireType

mutual

/-- The type-directed deserializer walk (`src/de.rs`), returning the decoded
value and the remaining input.  Composites follow the `SeqRead` discipline:
a `Sequence` header of length `n` against a declared arity `L` exposes
`min n L` elements to the derived visitor (which errors with a framework
`Deserialization` error if a required field is missing) and drains the
`n - L` unread elements on teardown. -/
def decode : (t : FTy) → List Nat → Except Err (FValue × List Nat)
  | .u64, input =>
    match deserialize_u64_wire input with
    | .error e => .error e
    | .ok (v, rest) => .ok (.vU64 v, rest)
  | .i64, input =>
    match deserialize_i64_wire input with
    | .error e => .error e
    | .ok (v, rest) => .ok (.vI64 v, rest)
  | .bool, input =>
    match deserialize_u64_wire input with
    | .error e => .error e
    | .ok (v, rest) => .ok (.vBool (v ≠ 0), rest)
  | .bytesT, input =>
    match deserialize_bytes_wire input with
    | .error e => .error e
    | .ok (bs, rest) => .ok (.vBytes bs, rest)
  | .option t, input =>
    match input with
    | [] => .error .UnexpectedEndOfInput
    | tagbyte :: data =>
      match read_wiretype tagbyte with
      | .Variant =>
        match read_varint tagbyte data with
        | .error e => .error e
        | .ok (b, c) =>
          let rest := data.drop c
          if b = 0 then
            match Deserializer.skip rest with
            | .error e => .error e
            | .ok out => .ok (.vOption none, out)
          else
            match decode t rest with
            | .error e => .error e
            | .ok (x, out) => .ok (.vOption (some x), out)
      | _ => .error .UnexpectedWireType
  | .tuple ts, input =>
    match input with
    | [] => .error .UnexpectedEndOfInput
    | tagbyte :: data =>
      match read_wiretype tagbyte with
      | .Sequence =>
        match read_varint tagbyte data with
        | .error e => .error e
        | .ok (n, c) =>
          match decodeFields ts (min n ts.length) (data.drop c) with
          | .error e => .error e
          | .ok (fs, rest) => .ok (.vTuple fs, SeqRead.drop_drain (n - ts.length) rest)
      | _ => .error .UnexpectedWireType
  | .seq t, input =>
    match input with
    | [] => .error .UnexpectedEndOfInput
    | tagbyte :: data =>
      match read_wiretype tagbyte with
      | .Sequence =>
        match read_varint tagbyte data with
        | .error e => .error e
        | .ok (n, c) =>
          match decodeMany t n (data.drop c) with
          | .error e => .error e
          | .ok (xs, rest) => .ok (.vSeq xs, rest)
      | _ => .error .UnexpectedWireType
termination_by t _ => (sizeOf t, 0, 0)

/-- Field loop of a tuple/struct visitor: each declared field asks the child
reader for the next element; `nret` is the reader's `nreturn` budget, and a
`None` answer for a required field is a framework error. -/
def decodeFields : (ts : List FTy) → Nat → List Nat → Except Err (List FValue × List Nat)
  | [], _, input => .ok ([], input)
  | _ :: _, 0, _ => .error (.Deserialization "invalid length")
  | t :: ts, nret + 1, input =>
    match decode t input with
    | .error e => .error e
    | .ok (x, rest) =>
      match decodeFields ts nret rest with
      | .error e => .error e
      | .ok (xs, out) => .ok (x :: xs, out)
termination_by ts _ _ => (sizeOf ts, 1, 0)

/-- Element loop of a sequence visitor: read exactly `n` elements of type `t`. -/
def decodeMany : (t : FTy) → Nat → List Nat → Except Err (List FValue × List Nat)
  | _, 0, input => .ok ([], input)
  | t, n + 1, input =>
    match decode t input with
    | .error e => .error e
    | .ok (x, rest) =>
      match decodeMany t n rest with
      | .error e => .error e
      | .ok (xs, out) => .ok (x :: xs, out)
termination_by t n _ => (sizeOf t, 1, n)

end

/-- `to_bytes` from `src/lib.rs`: serialize into a fresh buffer. -/
def to_bytes (v : FValue) : List Nat := encode v

/-- `from_bytes` from `src/lib.rs`: deserialize a whole byte slice, requiring
that no bytes remain (`DataBeyondEnd` otherwise). -/
def from_bytes (t : FTy) (data : List Nat) : Except Err FValue :=
  match decode t data with
  | .error e => .error e
  | .ok (v, rest) => if 0 < rest.length then .error .DataBeyondEnd else .ok v

/-- `from_bytes_more_data` from `src/lib.rs`: deserialize a prefix and report
how many bytes were consumed. -/
def from_bytes_more_data (t : FTy) (data : List Nat) : Except Err (FValue × Nat) :=
  match decode t data with
  | .error e => .error e
  | .ok (v, rest) => .ok (v, data.length - rest.length)

/-!
Wire-level grammar of encoded values, spanning all six wire types.  `WValue`
is the shape of one self-delimited value on the wire, `encodeW` produces its
byte run, and `WValid` states the bounds that make it a value the encoder
could emit (`u64` payload/length/discriminant ranges, `u8` bytes).  This is
the notion of "valid encoded value" used in the skip-correctness claims.
-/

/-- One value on the wire, by wire type. -/
inductive WValue where
  | wInt (n : Nat)
  | wFixed32 (b0 b1 b2 b3 : Nat)
  | wFixed64 (b0 b1 b2 b3 b4 b5 b6 b7 : Nat)
  | wSeq (items : List WValue)
  | wBytes (bs : List Nat)
  | wVariant (d : Nat) (child : WValue)

mutual

/-- Byte run of a wire value: varint-bearing types pack their payload with the
tag byte via `write_varint`; `Fixed32`/`Fixed64` emit a bare tag byte (bits
3–7 zero) then the payload bytes; composites append their children. -/
def encodeW : WValue → List Nat
  | .wInt n => write_varint .Int n
  | .wFixed32 b0 b1 b2 b3 => WireType.Fixed32.toNat :: [b0, b1, b2, b3]
  | .wFixed64 b0 b1 b2 b3 b4 b5 b6 b7 => WireType.Fixed64.toNat :: [b0, b1, b2, b3, b4, b5, b6, b7]
  | .wSeq items => write_varint .Sequence items.length ++ encodeWList items
  | .wBytes bs => write_varint .Bytes bs.length ++ bs
  | .wVariant d child => write_varint .Variant d ++ encodeW child

/-- Children of a wire sequence, encoded back-to-back. -/
def encodeWList : List WValue → List Nat
  | [] => []
  | x :: xs => encodeW x ++ encodeWList xs

end

/-- Validity of a wire value: all varint payloads fit in `u64` and all raw
payload bytes are `u8`. -/
inductive WValid : WValue → Prop where
  | int {n : Nat} : n < 2 ^ 64 → WValid (.wInt n)
  | fixed32 {b0 b1 b2 b3 : Nat} : b0 < 256 → b1 < 256 → b2 < 256 → b3 < 256 →
      WValid (.wFixed32 b0 b1 b2 b3)
  | fixed64 {b0 b1 b2 b3 b4 b5 b6 b7 : Nat} : b0 < 256 → b1 < 256 → b2 < 256 → b3 < 256 →
      b4 < 256 → b5 < 256 → b6 < 256 → b7 < 256 →
      WValid (.wFixed64 b0 b1 b2 b3 b4 b5 b6 b7)
  | seq {items : List WValue} : items.length < 2 ^ 64 → (∀ v ∈ items, WValid v) →
      WValid (.wSeq items)
  | bytes {bs : List Nat} : bs.length < 2 ^ 64 → (∀ b ∈ bs, b < 256) →
      WValid (.wBytes bs)
  | variant {d : Nat} {child : WValue} : d < 2 ^ 64 → WValid child →
      WValid (.wVariant d child)

/-- Length of the maximal prefix of `data` consisting of continuation bytes
(bytes with the stop bit set).  Used to state exactly where `read_varint`
stops, overflows, or runs out of input. -/
def leadCont : List Nat → Nat
  | [] => 0
  | b :: rest => if b % 256 < 128 then 0 else leadCont rest + 1

/-- Mathematical payload of the continuation bytes of a varint, starting at
bit position `shift`: each byte contributes its low 7 bits. -/
def varint_payload_cont : List Nat → Nat → Nat
  | [], _ => 0
  | b :: rest, shift => (b % 128) * 2 ^ shift + varint_payload_cont rest (shift + 7)

/-- Mathematical payload of a varint: 4 bits from the tag byte plus the
7-bit groups of the continuation bytes. -/
def varint_payload (tagbyte : Nat) (data : List Nat) : Nat :=
  (tagbyte % 128) / 8 + varint_payload_cont data 4

/-!
### Wire-primitive lemmas
-/

theorem varint_cont_ne_nil (v : Nat) : varint_cont v ≠ [] := by
  rw [varint_cont]
  split <;> simp

theorem varint_cont_len_le (k : Nat) : ∀ q, q < 128 ^ k → 0 < q → (varint_cont q).length ≤ k := by
  induction k with
  | zero => intro q hq h0; simp at hq; omega
  | succ k ih =>
    intro q hq h0
    rw [varint_cont]
    by_cases h : q / 128 = 0
    · simp [h]
    · simp [h]
      have hdiv : q / 128 < 128 ^ k := by
        apply Nat.div_lt_of_lt_mul
        calc q < 128 ^ (k + 1) := hq
          _ = 128 * 128 ^ k := by ring
      have := ih (q / 128) hdiv (Nat.pos_of_ne_zero h)
      omega

theorem read_varint_loop_cont (q : Nat) : ∀ value shift consumed rest, 0 < q →
    value < 2 ^ shift → value + q * 2 ^ shift < 2 ^ 64 →
    read_varint_loop (varint_cont q ++ rest) value shift consumed =
      .ok (value + q * 2 ^ shift, consumed + (varint_cont q).length) := by
  induction q using Nat.strong_induction_on with
  | _ q ih =>
    intro value shift consumed rest hq hval hfit
    have hshift : ¬ 64 ≤ shift := by
      intro hc
      have h1 : 2 ^ 64 ≤ 2 ^ shift := Nat.pow_le_pow_right (by omega) hc
      have h2 : 2 ^ shift ≤ q * 2 ^ shift := Nat.le_mul_of_pos_left _ hq
      omega
    rw [varint_cont]
    by_cases h : q / 128 = 0
    · have hq128 : q < 128 := by omega
      simp only [h, if_true, List.cons_append, List.nil_append]
      rw [read_varint_loop]
      have hm : q % 128 = q := Nat.mod_eq_of_lt hq128
      have hm' : q % 128 % 256 = q := by
        rw [hm]; exact Nat.mod_eq_of_lt (by omega)
      have hq256 : q % 256 = q := Nat.mod_eq_of_lt (by omega)
      simp only [hshift, if_false, hm, hm', hq256]
      rw [if_pos (by omega)]
      rw [Nat.mod_eq_of_lt hfit]
      simp [hm]
    · simp only [h, if_false, List.cons_append]
      rw [read_varint_loop]
      have hb : ¬ (q % 128 + 128) % 256 < 128 := by
        have : q % 128 < 128 := Nat.mod_lt _ (by omega)
        rw [Nat.mod_eq_of_lt (by omega)]
        omega
      simp only [hshift, if_false, hb]
      have hmm : (q % 128 + 128) % 128 = q % 128 := by omega
      rw [hmm]
      have hdecomp : q % 128 + 128 * (q / 128) = q := Nat.mod_add_div q 128
      have hp7 : (2 : Nat) ^ (shift + 7) = 2 ^ shift * 128 := by ring
      have hcontrib : q % 128 * 2 ^ shift ≤ q * 2 ^ shift :=
        Nat.mul_le_mul_right _ (Nat.mod_le _ _)
      have hsmall : value + q % 128 * 2 ^ shift < 2 ^ 64 := by omega
      rw [Nat.mod_eq_of_lt hsmall]
      have hval' : value + q % 128 * 2 ^ shift < 2 ^ (shift + 7) := by
        have h1 : q % 128 < 128 := Nat.mod_lt _ (by omega)
        have h2 : q % 128 * 2 ^ shift ≤ 127 * 2 ^ shift :=
          Nat.mul_le_mul_right _ (by omega)
        rw [hp7]
        nlinarith [Nat.pos_pow_of_pos shift (show 0 < 2 by omega)]
      have hsum : value + q % 128 * 2 ^ shift + q / 128 * 2 ^ (shift + 7) =
          value + q * 2 ^ shift := by
        rw [hp7]
        have : q % 128 * 2 ^ shift + q / 128 * (2 ^ shift * 128) =
            (q % 128 + 128 * (q / 128)) * 2 ^ shift := by ring
        rw [Nat.add_assoc, this, hdecomp]
      have hfit' : value + q % 128 * 2 ^ shift + q / 128 * 2 ^ (shift + 7) < 2 ^ 64 := by
        rw [hsum]; exact hfit
      rw [ih (q / 128) (by omega) _ _ _ rest (Nat.pos_of_ne_zero h) hval' hfit']
      rw [hsum]
      simp
      omega

theorem write_varint_cons (t : WireType) (v : Nat) :
    write_varint t v =
      (if v / 16 = 0 then [t.toNat + v % 16 * 8]
       else (t.toNat + v % 16 * 8 + 128) :: varint_cont (v / 16)) := by
  rw [write_varint]

theorem wiretype_toNat_lt (t : WireType) : t.toNat < 8 := by
  cases t <;> simp [WireType.toNat]

theorem read_wiretype_toNat (t : WireType) (m : Nat) :
    read_wiretype (t.toNat + m * 8) = t := by
  have ht8 : t.toNat < 8 := wiretype_toNat_lt t
  have h8 : (t.toNat + m * 8) % 8 = t.toNat := by
    omega
  rw [read_wiretype, h8]
  cases t <;> simp [WireType.toNat]

/-- The tag byte written by `write_varint` carries the wire type it was given. -/
theorem read_wiretype_write_varint (t : WireType) (v : Nat) (b : Nat) (bs : List Nat)
    (h : write_varint t v = b :: bs) : read_wiretype b = t := by
  rw [write_varint_cons] at h
  by_cases hv : v / 16 = 0
  · simp [hv] at h
    obtain ⟨hb, -⟩ := h
    rw [← hb]
    have : t.toNat + v % 16 * 8 = t.toNat + (v % 16) * 8 := by ring
    exact read_wiretype_toNat t (v % 16)
  · simp [hv] at h
    obtain ⟨hb, -⟩ := h
    rw [← hb]
    have : t.toNat + v % 16 * 8 + 128 = t.toNat + (v % 16 + 16) * 8 := by ring
    rw [this]
    exact read_wiretype_toNat t (v % 16 + 16)

theorem write_varint_ne_nil (t : WireType) (v : Nat) : write_varint t v ≠ [] := by
  rw [write_varint_cons]
  split <;> simp

/-- Reading back a written varint: the value is recovered and exactly the
written continuation bytes are consumed, for any trailing data. -/
theorem read_write_varint (t : WireType) (v : Nat) (b : Nat) (bs : List Nat) (rest : List Nat)
    (hv : v < 2 ^ 64) (h : write_varint t v = b :: bs) :
    read_varint b (bs ++ rest) = .ok (v, bs.length) := by
  have ht8 : t.toNat < 8 := wiretype_toNat_lt t
  rw [write_varint_cons] at h
  by_cases hq : v / 16 = 0
  · simp [hq] at h
    obtain ⟨hb, hbs⟩ := h
    have hv16 : v < 16 := by omega
    have hm : v % 16 = v := Nat.mod_eq_of_lt hv16
    rw [read_varint, ← hb, hm]
    have hlt : (t.toNat + v * 8) % 256 = t.toNat + v * 8 := Nat.mod_eq_of_lt (by omega)
    rw [hlt, if_pos (by omega)]
    have : (t.toNat + v * 8) / 8 = v := by omega
    rw [this]
    simp [hbs]
  · simp [hq] at h
    obtain ⟨hb, hbs⟩ := h
    rw [read_varint, ← hb]
    have hlt256 : (t.toNat + v % 16 * 8 + 128) % 256 = t.toNat + v % 16 * 8 + 128 := by
      have : v % 16 < 16 := Nat.mod_lt _ (by omega)
      exact Nat.mod_eq_of_lt (by omega)
    rw [hlt256, if_neg (by omega)]
    have h128 : (t.toNat + v % 16 * 8 + 128) % 128 = t.toNat + v % 16 * 8 := by
      have : v % 16 < 16 := Nat.mod_lt _ (by omega)
      omega
    rw [h128]
    have h8 : (t.toNat + v % 16 * 8) / 8 = v % 16 := by omega
    rw [h8, ← hbs]
    have hval : v % 16 < 2 ^ 4 := by
      have : v % 16 < 16 := Nat.mod_lt _ (by omega)
      omega
    have hfit : v % 16 + v / 16 * 2 ^ 4 < 2 ^ 64 := by
      have : v % 16 + 16 * (v / 16) = v := Nat.mod_add_div v 16
      have h16 : (2 : Nat) ^ 4 = 16 := by norm_num
      omega
    rw [read_varint_loop_cont (v / 16) _ 4 0 rest (Nat.pos_of_ne_zero hq) hval hfit]
    have hvv : v % 16 + v / 16 * 2 ^ 4 = v := by
      have : v % 16 + 16 * (v / 16) = v := Nat.mod_add_div v 16
      have h16 : (2 : Nat) ^ 4 = 16 := by norm_num
      omega
    rw [hvv]
    simp [← hbs]

/-!
### Zig-zag lemmas
-/

theorem xor_two_pow_sub_one (w a : Nat) (h : a < 2 ^ w) :
    a ^^^ (2 ^ w - 1) = 2 ^ w - 1 - a := by
  have hsub : 2 ^ w - 1 - a = 2 ^ w - (a + 1) := by omega
  rw [hsub]
  apply Nat.eq_of_testBit_eq
  intro i
  rw [Nat.testBit_two_pow_sub_succ h i]
  simp only [Nat.testBit_xor, Nat.testBit_two_pow_sub_one]
  by_cases hi : i < w
  · cases hb : a.testBit i <;> simp [hi, hb]
  · have hia : a < 2 ^ i := lt_of_lt_of_le h (Nat.pow_le_pow_right (by omega) (by omega))
    simp [hi, Nat.testBit_lt_two_pow hia]

theorem i64toU64_zero : i64toU64 0 = 0 := by decide

theorem i64toU64_neg_one : i64toU64 (-1) = 2 ^ 64 - 1 := by decide

theorem i64toU64_nonneg (v : Int) (h0 : 0 ≤ v) (h1 : v < 2 ^ 64) :
    i64toU64 v = v.toNat := by
  rw [i64toU64, Int.emod_eq_of_lt h0 (by exact_mod_cast h1)]

theorem i64toU64_neg (v : Int) (h0 : -(2 ^ 64) ≤ v) (h1 : v < 0) :
    (i64toU64 v : Int) = v + 2 ^ 64 := by
  rw [i64toU64]
  have : v % (2 : Int) ^ 64 = v + 2 ^ 64 := by omega
  rw [this]
  omega

/-- `zigzag_encode` on non-negative `i64` values is doubling. -/
theorem zigzag_encode_nonneg (v : Int) (h0 : 0 ≤ v) (h1 : v < 2 ^ 63) :
    zigzag_encode v = 2 * v.toNat := by
  rw [zigzag_encode, if_neg (by omega), i64toU64_zero, Nat.xor_zero]
  rw [i64toU64_nonneg (v * 2) (by omega) (by omega)]
  omega

/-- `zigzag_encode` on negative `i64` values is `-2v - 1`. -/
theorem zigzag_encode_neg (v : Int) (h0 : -(2 ^ 63) ≤ v) (h1 : v < 0) :
    zigzag_encode v = 2 * (-v).toNat - 1 := by
  rw [zigzag_encode, if_pos h1, i64toU64_neg_one]
  have ha : (i64toU64 (v * 2) : Int) = v * 2 + 2 ^ 64 := by
    apply i64toU64_neg <;> omega
  have hlt : i64toU64 (v * 2) < 2 ^ 64 := by omega
  rw [xor_two_pow_sub_one 64 _ hlt]
  omega

theorem zigzag_encode_lt (v : Int) (h0 : -(2 ^ 63) ≤ v) (h1 : v < 2 ^ 63) :
    zigzag_encode v < 2 ^ 64 := by
  by_cases hv : 0 ≤ v
  · rw [zigzag_encode_nonneg v hv h1]; omega
  · rw [zigzag_encode_neg v h0 (by omega)]; omega

/-- `zigzag_decode` on even patterns is halving. -/
theorem zigzag_decode_even (e : Nat) (he : e % 2 = 0) (hlt : e < 2 ^ 64) :
    zigzag_decode e = (e / 2 : Nat) := by
  rw [zigzag_decode, he]
  simp only [Nat.cast_zero, neg_zero, i64toU64_zero, Nat.xor_zero]
  rw [u64toI64, if_pos (by omega)]

/-- `zigzag_decode` on odd patterns is `-(e / 2) - 1`. -/
theorem zigzag_decode_odd (e : Nat) (he : e % 2 = 1) (hlt : e < 2 ^ 64) :
    zigzag_decode e = -((e / 2 : Nat) : Int) - 1 := by
  rw [zigzag_decode, he]
  simp only [Nat.cast_one, i64toU64_neg_one]
  rw [xor_two_pow_sub_one 64 (e / 2) (by omega)]
  rw [u64toI64, if_neg (by omega)]
  have h2 : ((2 ^ 64 - 1 - e / 2 : Nat) : Int) = 2 ^ 64 - 1 - (e / 2 : Nat) := by
    have : e / 2 ≤ 2 ^ 64 - 1 := by omega
    omega
  rw [h2]
  ring

/-- Zig-zag round trip on the `i64` range. -/
theorem zigzag_decode_encode (v : Int) (h0 : -(2 ^ 63) ≤ v) (h1 : v < 2 ^ 63) :
    zigzag_decode (zigzag_encode v) = v := by
  by_cases hv : 0 ≤ v
  · rw [zigzag_encode_nonneg v hv h1]
    rw [zigzag_decode_even _ (by omega) (by omega)]
    omega
  · rw [zigzag_encode_neg v h0 (by omega)]
    have hk : 1 ≤ (-v).toNat := by omega
    rw [zigzag_decode_odd _ (by omega) (by omega)]
    have : (2 * (-v).toNat - 1) / 2 = (-v).toNat - 1 := by omega
    rw [this]
    omega

/-!
### Skip lemmas
-/

theorem skip_varint_loop_cont (q : Nat) : ∀ i rest, 0 < q → i + (varint_cont q).length ≤ 18 →
    skip_varint_loop i (varint_cont q ++ rest) = .ok (i + (varint_cont q).length) := by
  induction q using Nat.strong_induction_on with
  | _ q ih =>
    intro i rest hq hbound
    rw [varint_cont] at hbound ⊢
    by_cases h : q / 128 = 0
    · simp only [h, if_true, List.cons_append, List.nil_append] at hbound ⊢
      rw [skip_varint_loop]
      have hqm : q % 128 % 256 = q % 128 := Nat.mod_eq_of_lt (by omega)
      have : q % 128 < 128 := Nat.mod_lt _ (by omega)
      simp only [List.length_cons, List.length_nil] at hbound
      rw [if_neg (by omega), if_pos (by omega)]
      simp
    · simp only [h, if_false, List.cons_append, List.length_cons] at hbound ⊢
      rw [skip_varint_loop]
      have hqm : (q % 128 + 128) % 256 = q % 128 + 128 := by
        have : q % 128 < 128 := Nat.mod_lt _ (by omega)
        exact Nat.mod_eq_of_lt (by omega)
      rw [if_neg (by omega), if_neg (by omega)]
      rw [ih (q / 128) (by omega) (i + 1) rest (Nat.pos_of_ne_zero h) (by omega)]
      simp
      omega

/-- Skipping a freshly written varint consumes exactly its continuation
bytes. -/
theorem skip_write_varint (t : WireType) (v : Nat) (b : Nat) (bs : List Nat) (rest : List Nat)
    (hv : v < 2 ^ 64) (h : write_varint t v = b :: bs) :
    skip_varint b (bs ++ rest) = .ok bs.length := by
  have ht8 : t.toNat < 8 := wiretype_toNat_lt t
  rw [write_varint_cons] at h
  by_cases hq : v / 16 = 0
  · simp [hq] at h
    obtain ⟨hb, hbs⟩ := h
    rw [skip_varint, ← hb]
    have : v % 16 < 16 := Nat.mod_lt _ (by omega)
    rw [if_pos (by rw [Nat.mod_eq_of_lt (by omega)]; omega)]
    simp [hbs]
  · simp [hq] at h
    obtain ⟨hb, hbs⟩ := h
    rw [skip_varint, ← hb]
    have hm16 : v % 16 < 16 := Nat.mod_lt _ (by omega)
    rw [if_neg (by rw [Nat.mod_eq_of_lt (by omega)]; omega)]
    have hlen : (varint_cont (v / 16)).length ≤ 9 := by
      apply varint_cont_len_le 9
      · calc v / 16 < 2 ^ 60 := by omega
          _ < 128 ^ 9 := by norm_num
      · exact Nat.pos_of_ne_zero hq
    rw [← hbs]
    rw [skip_varint_loop_cont (v / 16) 0 rest (Nat.pos_of_ne_zero hq) (by omega)]
    simp

theorem skip_ok_iff (input out : List Nat) :
    Deserializer.skip input = .ok out ↔
      ∃ h : out.length < input.length, skipAux input = .ok ⟨out, h⟩ := by
  rw [Deserializer.skip]
  cases h : skipAux input with
  | error e => simp [h, Except.map]
  | ok p =>
    obtain ⟨val, hp⟩ := p
    simp only [h, Except.map]
    constructor
    · intro he
      have : val = out := by simpa using he
      subst this
      exact ⟨hp, rfl⟩
    · rintro ⟨h1, h2⟩
      simp only [Except.ok.injEq, Subtype.mk.injEq] at h2
      simp [h2]

theorem skipN_ok_iff (n : Nat) (input out : List Nat) :
    Deserializer.skipN n input = .ok out ↔
      ∃ h : out.length ≤ input.length, skipNAux n input = .ok ⟨out, h⟩ := by
  rw [Deserializer.skipN]
  cases h : skipNAux n input with
  | error e => simp [h, Except.map]
  | ok p =>
    obtain ⟨val, hp⟩ := p
    simp only [h, Except.map]
    constructor
    · intro he
      have : val = out := by simpa using he
      subst this
      exact ⟨hp, rfl⟩
    · rintro ⟨h1, h2⟩
      simp only [Except.ok.injEq, Subtype.mk.injEq] at h2
      simp [h2]

theorem skipN_zero (input : List Nat) : Deserializer.skipN 0 input = .ok input := by
  rw [skipN_ok_iff]
  exact ⟨Nat.le_refl _, by rw [skipNAux]⟩

theorem skipN_succ (n : Nat) (input mid out : List Nat)
    (h1 : Deserializer.skip input = .ok mid) (h2 : Deserializer.skipN n mid = .ok out) :
    Deserializer.skipN (n + 1) input = .ok out := by
  rw [skip_ok_iff] at h1
  obtain ⟨hl1, h1⟩ := h1
  rw [skipN_ok_iff] at h2
  obtain ⟨hl2, h2⟩ := h2
  rw [skipN_ok_iff]
  refine ⟨by omega, ?_⟩
  rw [skipNAux, h1]
  simp only []
  rw [h2]

theorem skipN_encodeWList (items : List WValue)
    (hall : ∀ v ∈ items, ∀ r, Deserializer.skip (encodeW v ++ r) = .ok r) :
    ∀ rest, Deserializer.skipN items.length (encodeWList items ++ rest) = .ok rest := by
  induction items with
  | nil =>
    intro rest
    rw [encodeWList]
    simpa using skipN_zero rest
  | cons x xs ih =>
    intro rest
    rw [encodeWList]
    simp only [List.length_cons, List.append_assoc]
    apply skipN_succ _ _ (encodeWList xs ++ rest)
    · exact hall x (by simp) _
    · exact ih (fun v hv r => hall v (by simp [hv]) r) rest

/-- Evaluation rule for `Deserializer::skip` at an `Int` tag. -/
theorem skip_cons_int (tagbyte : Nat) (data : List Nat) (len : Nat)
    (hwt : read_wiretype tagbyte = .Int) (hsv : skip_varint tagbyte data = .ok len) :
    Deserializer.skip (tagbyte :: data) = .ok (data.drop len) := by
  rw [skip_ok_iff]
  refine ⟨by simp; omega, ?_⟩
  rw [skipAux, hwt, hsv]

/-- Evaluation rule for `Deserializer::skip` at a `Fixed32` tag. -/
theorem skip_cons_fixed32 (tagbyte : Nat) (data : List Nat)
    (hwt : read_wiretype tagbyte = .Fixed32) (h4 : 4 ≤ data.length) :
    Deserializer.skip (tagbyte :: data) = .ok (data.drop 4) := by
  rw [skip_ok_iff]
  refine ⟨by simp; omega, ?_⟩
  rw [skipAux, hwt, if_pos h4]

/-- Evaluation rule for `Deserializer::skip` at a `Fixed64` tag. -/
theorem skip_cons_fixed64 (tagbyte : Nat) (data : List Nat)
    (hwt : read_wiretype tagbyte = .Fixed64) (h8 : 8 ≤ data.length) :
    Deserializer.skip (tagbyte :: data) = .ok (data.drop 8) := by
  rw [skip_ok_iff]
  refine ⟨by simp; omega, ?_⟩
  rw [skipAux, hwt, if_pos h8]

/-- Evaluation rule for `Deserializer::skip` at a `Sequence` tag. -/
theorem skip_cons_sequence (tagbyte : Nat) (data : List Nat) (len c : Nat) (out : List Nat)
    (hwt : read_wiretype tagbyte = .Sequence)
    (hrv : read_varint tagbyte data = .ok (len, c))
    (hsn : Deserializer.skipN len (data.drop c) = .ok out) :
    Deserializer.skip (tagbyte :: data) = .ok out := by
  rw [skipN_ok_iff] at hsn
  obtain ⟨hl, hsn⟩ := hsn
  rw [skip_ok_iff]
  refine ⟨by simp at hl ⊢; omega, ?_⟩
  rw [skipAux, hwt, hrv]
  simp only []
  rw [hsn]

/-- Evaluation rule for `Deserializer::skip` at a `Bytes` tag. -/
theorem skip_cons_bytes (tagbyte : Nat) (data : List Nat) (len c : Nat)
    (hwt : read_wiretype tagbyte = .Bytes)
    (hrv : read_varint tagbyte data = .ok (len, c))
    (hle : len ≤ (data.drop c).length) :
    Deserializer.skip (tagbyte :: data) = .ok ((data.drop c).drop len) := by
  rw [skip_ok_iff]
  refine ⟨by simp; omega, ?_⟩
  rw [skipAux, hwt, hrv]
  simp only []
  rw [if_pos hle]

/-- Evaluation rule for `Deserializer::skip` at a `Variant` tag. -/
theorem skip_cons_variant (tagbyte : Nat) (data : List Nat) (d c : Nat) (out : List Nat)
    (hwt : read_wiretype tagbyte = .Variant)
    (hrv : read_varint tagbyte data = .ok (d, c))
    (hsk : Deserializer.skip (data.drop c) = .ok out) :
    Deserializer.skip (tagbyte :: data) = .ok out := by
  rw [skip_ok_iff] at hsk
  obtain ⟨hl, hsk⟩ := hsk
  rw [skip_ok_iff]
  refine ⟨by simp at hl ⊢; omega, ?_⟩
  rw [skipAux, hwt, hrv]
  simp only []
  rw [hsk]

/-- Evaluation rule for `Deserializer::skip` at a reserved tag: hard error. -/
theorem skip_cons_reserved (tagbyte : Nat) (data : List Nat)
    (hwt : read_wiretype tagbyte = .Reserved1 ∨ read_wiretype tagbyte = .Reserved2) :
    Deserializer.skip (tagbyte :: data) = .error .UnexpectedWireType := by
  rw [Deserializer.skip, skipAux]
  rcases hwt with h | h <;> rw [h] <;> rfl

/-- Evaluation rule for the stateful skip at an `Int` tag, success case:
result and cursor agree with `Deserializer.skip`. -/
theorem skip_state_cons_int_ok (tagbyte : Nat) (data : List Nat) (len : Nat)
    (hwt : read_wiretype tagbyte = .Int) (hsv : skip_varint tagbyte data = .ok len) :
    Deserializer.skip_state (tagbyte :: data) = (.ok (), data.drop len) := by
  rw [Deserializer.skip_state, skipStAux, hwt, hsv]

/-- Evaluation rule for the stateful skip at an `Int` tag whose varint scan
fails: the tag byte stays consumed, so the cursor is `data`. -/
theorem skip_state_cons_int_err (tagbyte : Nat) (data : List Nat) (e : Err)
    (hwt : read_wiretype tagbyte = .Int) (hsv : skip_varint tagbyte data = .error e) :
    Deserializer.skip_state (tagbyte :: data) = (.error e, data) := by
  rw [Deserializer.skip_state, skipStAux, hwt, hsv]

/-- Evaluation rule for the stateful skip at a `Bytes` tag whose announced
length exceeds the remaining input: the tag byte and length varint stay
consumed, the failing `read` consumes nothing. -/
theorem skip_state_cons_bytes_err (tagbyte : Nat) (data : List Nat) (len c : Nat)
    (hwt : read_wiretype tagbyte = .Bytes)
    (hrv : read_varint tagbyte data = .ok (len, c))
    (hgt : ¬ len ≤ (data.drop c).length) :
    Deserializer.skip_state (tagbyte :: data) = (.error .UnexpectedEndOfInput, data.drop c) := by
  rw [Deserializer.skip_state, skipStAux, hwt, hrv]
  simp only []
  rw [if_neg hgt]

/-- Skipping one validly encoded wire value consumes exactly its bytes. -/
theorem skip_encodeW {v : WValue} (hv : WValid v) :
    ∀ rest, Deserializer.skip (encodeW v ++ rest) = .ok rest := by
  induction hv with
  | int hn =>
    rename_i n
    intro rest
    cases hw : write_varint .Int n with
    | nil => exact absurd hw (write_varint_ne_nil _ _)
    | cons b bs =>
      rw [encodeW, hw]
      simp only [List.cons_append]
      rw [skip_cons_int b (bs ++ rest) bs.length (read_wiretype_write_varint _ _ _ _ hw)
        (skip_write_varint _ _ _ _ rest hn hw)]
      rw [List.drop_left]
  | fixed32 h0 h1 h2 h3 =>
    intro rest
    rw [encodeW]
    simp only [List.cons_append]
    rw [skip_cons_fixed32 _ _ (by decide) (by simp)]
    simp
  | fixed64 h0 h1 h2 h3 h4 h5 h6 h7 =>
    intro rest
    rw [encodeW]
    simp only [List.cons_append]
    rw [skip_cons_fixed64 _ _ (by decide) (by simp)]
    simp
  | seq hlen hmem ih =>
    rename_i items
    intro rest
    cases hw : write_varint .Sequence items.length with
    | nil => exact absurd hw (write_varint_ne_nil _ _)
    | cons b bs =>
      rw [encodeW, hw]
      simp only [List.cons_append, List.append_assoc]
      apply skip_cons_sequence b _ items.length bs.length rest
        (read_wiretype_write_varint _ _ _ _ hw)
        (read_write_varint _ _ _ _ (encodeWList items ++ rest) hlen hw)
      rw [List.drop_left]
      exact skipN_encodeWList items ih rest
  | bytes hlen hmem =>
    rename_i bs'
    intro rest
    cases hw : write_varint .Bytes bs'.length with
    | nil => exact absurd hw (write_varint_ne_nil _ _)
    | cons b bs =>
      rw [encodeW, hw]
      simp only [List.cons_append, List.append_assoc]
      rw [skip_cons_bytes b _ bs'.length bs.length
        (read_wiretype_write_varint _ _ _ _ hw)
        (read_write_varint _ _ _ _ (bs' ++ rest) hlen hw)
        (by rw [List.drop_left]; simp)]
      rw [List.drop_left]
      rw [List.drop_left]
  | variant hd hc ih =>
    rename_i d child
    intro rest
    cases hw : write_varint .Variant d with
    | nil => exact absurd hw (write_varint_ne_nil _ _)
    | cons b bs =>
      rw [encodeW, hw]
      simp only [List.cons_append, List.append_assoc]
      apply skip_cons_variant b _ d bs.length rest
        (read_wiretype_write_varint _ _ _ _ hw)
        (read_write_varint _ _ _ _ (encodeW child ++ rest) hd hw)
      rw [List.drop_left]
      exact ih rest

/-!
### Decode/encode round-trip lemmas
-/

theorem deserialize_u64_wire_write (n : Nat) (rest : List Nat) (hn : n < 2 ^ 64) :
    deserialize_u64_wire (write_varint .Int n ++ rest) = .ok (n, rest) := by
  cases hw : write_varint .Int n with
  | nil => exact absurd hw (write_varint_ne_nil _ _)
  | cons b bs =>
    simp only [List.cons_append]
    rw [deserialize_u64_wire.eq_def]
    simp only []
    rw [read_wiretype_write_varint _ _ _ _ hw]
    simp only []
    rw [read_write_varint _ _ _ _ rest hn hw]
    simp only []
    rw [List.drop_left]

theorem deserialize_i64_wire_write (v : Int) (rest : List Nat)
    (h0 : -(2 ^ 63) ≤ v) (h1 : v < 2 ^ 63) :
    deserialize_i64_wire (write_varint .Int (zigzag_encode v) ++ rest) = .ok (v, rest) := by
  cases hw : write_varint .Int (zigzag_encode v) with
  | nil => exact absurd hw (write_varint_ne_nil _ _)
  | cons b bs =>
    simp only [List.cons_append]
    rw [deserialize_i64_wire.eq_def]
    simp only []
    rw [read_wiretype_write_varint _ _ _ _ hw]
    simp only []
    rw [read_write_varint _ _ _ _ rest (zigzag_encode_lt v h0 h1) hw]
    simp only []
    rw [List.drop_left, zigzag_decode_encode v h0 h1]

theorem deserialize_bytes_wire_write (bs : List Nat) (rest : List Nat)
    (hlen : bs.length < 2 ^ 64) :
    deserialize_bytes_wire (write_varint .Bytes bs.length ++ (bs ++ rest)) = .ok (bs, rest) := by
  cases hw : write_varint .Bytes bs.length with
  | nil => exact absurd hw (write_varint_ne_nil _ _)
  | cons b tb =>
    simp only [List.cons_append]
    rw [deserialize_bytes_wire.eq_def]
    simp only []
    rw [read_wiretype_write_varint _ _ _ _ hw]
    simp only []
    rw [read_write_varint _ _ _ _ (bs ++ rest) hlen hw]
    simp only []
    rw [List.drop_left]
    rw [if_pos (by simp)]
    rw [List.take_left, List.drop_left]

theorem drop_drain_zero (input : List Nat) : SeqRead.drop_drain 0 input = input := rfl

/-- Decoding a freshly written `i32` recovers the value and consumes exactly
its bytes. -/
theorem deserialize_i32_write (v : Int) (rest : List Nat)
    (h0 : -(2 ^ 31) ≤ v) (h1 : v < 2 ^ 31) :
    deserialize_i32 (serialize_i32 v ++ rest) = .ok (v, rest) := by
  rw [serialize_i32]
  cases hw : write_varint .Int (zigzag_encode v) with
  | nil => exact absurd hw (write_varint_ne_nil _ _)
  | cons b bs =>
    simp only [List.cons_append]
    rw [deserialize_i32.eq_def]
    simp only []
    rw [read_wiretype_write_varint _ _ _ _ hw]
    simp only []
    rw [read_write_varint _ _ _ _ rest (zigzag_encode_lt v (by omega) (by omega)) hw]
    simp only []
    rw [zigzag_decode_encode v (by omega) (by omega)]
    rw [if_pos (by omega)]
    rw [List.drop_left]

theorem decodeMany_encodeList (t : FTy) (xs : List FValue)
    (hall : ∀ x ∈ xs, ∀ r, decode t (encode x ++ r) = .ok (x, r)) :
    ∀ rest, decodeMany t xs.length (encodeList xs ++ rest) = .ok (xs, rest) := by
  induction xs with
  | nil =>
    intro rest
    rw [encodeList]
    simp only [List.length_nil, List.nil_append]
    rw [decodeMany]
  | cons x xs ih =>
    intro rest
    rw [encodeList]
    simp only [List.length_cons, List.append_assoc]
    rw [decodeMany]
    rw [hall x (by simp) (encodeList xs ++ rest)]
    simp only []
    rw [ih (fun y hy r => hall y (by simp [hy]) r) rest]

theorem decodeFields_encodeList (fs : List FValue) : ∀ (ts : List FTy),
    fs.length = ts.length →
    (∀ p ∈ fs.zip ts, ∀ r, decode p.2 (encode p.1 ++ r) = .ok (p.1, r)) →
    ∀ rest, decodeFields ts fs.length (encodeList fs ++ rest) = .ok (fs, rest) := by
  induction fs with
  | nil =>
    intro ts hlen hall rest
    cases ts with
    | nil =>
      rw [encodeList]
      simp only [List.length_nil, List.nil_append]
      rw [decodeFields]
    | cons t ts => simp at hlen
  | cons x xs ih =>
    intro ts hlen hall rest
    cases ts with
    | nil => simp at hlen
    | cons t ts =>
      rw [encodeList]
      simp only [List.length_cons, List.append_assoc]
      rw [decodeFields]
      rw [hall (x, t) (by simp) (encodeList xs ++ rest)]
      simp only []
      rw [ih ts (by simpa using hlen) (fun p hp r => hall p (by simp [hp]) r) rest]

/-- The central round trip: decoding the encoding of a well-typed value at its
own type succeeds, returns the value, and consumes exactly its bytes. -/
theorem decode_encode {v : FValue} {t : FTy} (h : HasTy v t) :
    ∀ rest, decode t (encode v ++ rest) = .ok (v, rest) := by
  induction h with
  | u64 hn =>
    intro rest
    rw [encode, decode.eq_def]
    simp only []
    rw [deserialize_u64_wire_write _ _ hn]
  | i64 h0 h1 =>
    intro rest
    rw [encode, decode.eq_def]
    simp only []
    rw [deserialize_i64_wire_write _ _ h0 h1]
  | bool =>
    rename_i b
    intro rest
    rw [encode, decode.eq_def]
    simp only []
    rw [deserialize_u64_wire_write _ _ (by cases b <;> simp)]
    cases b <;> simp
  | bytes hlen hmem =>
    rename_i bs
    intro rest
    rw [encode, decode.eq_def]
    simp only []
    rw [List.append_assoc]
    rw [deserialize_bytes_wire_write _ _ hlen]
  | noneV =>
    intro rest
    rw [encode, decode.eq_def]
    have h5 : write_varint .Variant 0 = [5] := by decide
    have h0 : write_varint .Int 0 = [0] := by decide
    rw [h5, h0]
    simp only [List.cons_append, List.nil_append]
    have hwt : read_wiretype 5 = .Variant := by decide
    rw [hwt]
    have hrv : read_varint 5 (0 :: rest) = .ok (0, 0) := by
      rw [read_varint]
      norm_num
    rw [hrv]
    simp only [List.drop_zero, if_pos rfl]
    have hskip : Deserializer.skip (0 :: rest) = .ok rest := by
      have := skip_cons_int 0 rest 0 (by decide) (by rw [skip_varint]; norm_num)
      simpa using this
    rw [hskip]
    simp
  | someV hx ih =>
    rename_i x tx
    intro rest
    rw [encode, decode.eq_def]
    have h13 : write_varint .Variant 1 = [13] := by decide
    rw [h13]
    simp only [List.cons_append, List.nil_append]
    have hwt : read_wiretype 13 = .Variant := by decide
    rw [hwt]
    have hrv : read_varint 13 (encode x ++ rest) = .ok (1, 0) := by
      rw [read_varint]
      norm_num
    rw [hrv]
    simp only [List.drop_zero]
    rw [if_neg (by omega)]
    rw [ih rest]
  | tuple hall hlen hfit ih =>
    rename_i fs ts
    intro rest
    rw [encode, decode.eq_def]
    cases hw : write_varint .Sequence fs.length with
    | nil => exact absurd hw (write_varint_ne_nil _ _)
    | cons b bs =>
      simp only [List.cons_append, List.append_assoc]
      rw [read_wiretype_write_varint _ _ _ _ hw]
      rw [read_write_varint _ _ _ _ (encodeList fs ++ rest) hfit hw]
      simp only []
      rw [List.drop_left]
      have hmin : min fs.length ts.length = fs.length := by omega
      rw [hmin]
      rw [decodeFields_encodeList fs ts hlen ih rest]
      simp only []
      have hz : fs.length - ts.length = 0 := by omega
      rw [hz, drop_drain_zero]
  | seq hall hlen ih =>
    rename_i xs tEl
    intro rest
    rw [encode, decode.eq_def]
    cases hw : write_varint .Sequence xs.length with
    | nil => exact absurd hw (write_varint_ne_nil _ _)
    | cons b bs =>
      simp only [List.cons_append, List.append_assoc]
      rw [read_wiretype_write_varint _ _ _ _ hw]
      rw [read_write_varint _ _ _ _ (encodeList xs ++ rest) hlen hw]
      simp only []
      rw [List.drop_left]
      rw [decodeMany_encodeList tEl xs ih rest]

/-!
### Claim theorems
-/

/-- Claim C1: for every value `v` of a supported type `T`, decoding the bytes
produced by encoding succeeds and returns `v` with no bytes left over:
`from_bytes(to_bytes(v)) = Ok(v)`. -/
theorem claim1_roundtrip {v : FValue} {t : FTy} (h : HasTy v t) :
    from_bytes t (to_bytes v) = .ok v := by
  rw [to_bytes, from_bytes]
  have hd := decode_encode h []
  rw [List.append_nil] at hd
  rw [hd]
  simp

/-- Witness for C1 at the concrete value `(-5_i64, Some(true))` of type
`(i64, Option<bool>)`. -/
theorem claim1_roundtrip_witness :
    from_bytes (.tuple [.i64, .option .bool])
        (to_bytes (.vTuple [.vI64 (-5), .vOption (some (.vBool true))])) =
      .ok (.vTuple [.vI64 (-5), .vOption (some (.vBool true))]) := by
  apply claim1_roundtrip
  apply HasTy.tuple
  · intro p hp
    simp only [List.zip_cons_cons, List.zip_nil_right, List.mem_cons,
      List.not_mem_nil, or_false] at hp
    rcases hp with rfl | rfl
    · exact HasTy.i64 (by norm_num) (by norm_num)
    · exact HasTy.someV HasTy.bool
  · rfl
  · norm_num

/-- Claim C2: for any byte input consisting of one valid encoded value
followed by arbitrary trailing bytes, `skip` succeeds and advances the cursor
by exactly the encoded value's byte length, leaving the cursor at the start of
the trailing bytes, for every wire type. -/
theorem claim2_skip_exact {v : WValue} (hv : WValid v) (trailing : List Nat) :
    Deserializer.skip (encodeW v ++ trailing) = .ok trailing :=
  skip_encodeW hv trailing

/-- Witness for C2 at a concrete value exercising all six wire types, with
trailing bytes `[9, 9]`. -/
theorem claim2_skip_exact_witness :
    Deserializer.skip
        (encodeW (.wSeq [.wInt 300, .wVariant 2 (.wBytes [7, 8]),
          .wFixed32 1 2 3 4, .wFixed64 1 2 3 4 5 6 7 8]) ++ [9, 9]) =
      .ok [9, 9] := by
  apply claim2_skip_exact
  apply WValid.seq (by norm_num)
  intro w hw
  simp only [List.mem_cons, List.not_mem_nil, or_false] at hw
  rcases hw with rfl | rfl | rfl | rfl
  · exact WValid.int (by norm_num)
  · exact WValid.variant (by norm_num)
      (WValid.bytes (by norm_num) (by intro b hb; simp at hb; omega))
  · exact WValid.fixed32 (by norm_num) (by norm_num) (by norm_num) (by norm_num)
  · exact WValid.fixed64 (by norm_num) (by norm_num) (by norm_num) (by norm_num)
      (by norm_num) (by norm_num) (by norm_num) (by norm_num)

/-- Claim C4: for every varint-bearing wire type and every `u64` value,
writing with `write_varint` and reading the first produced byte with
`read_varint` over the remaining produced bytes returns the value and
`n - 1` where `n` is the number of bytes written. -/
theorem claim4_varint_roundtrip (t : WireType) (v : Nat)
    (ht : t = .Int ∨ t = .Sequence ∨ t = .Bytes ∨ t = .Variant) (hv : v < 2 ^ 64)
    (b : Nat) (bs : List Nat) (hw : write_varint t v = b :: bs) :
    read_varint b bs = .ok (v, (b :: bs).length - 1) := by
  have h := read_write_varint t v b bs [] hv hw
  rw [List.append_nil] at h
  simpa using h

/-- Witness for C4 at wire type `Variant` and value 777
(`write_varint(Variant, 777) = [0xCD, 0x30]`). -/
theorem claim4_varint_roundtrip_witness :
    read_varint 205 [48] = .ok (777, ([205, 48] : List Nat).length - 1) :=
  claim4_varint_roundtrip .Variant 777 (Or.inr (Or.inr (Or.inr rfl)))
    (by norm_num) 205 [48]
    (by rw [write_varint]; norm_num [WireType.toNat]; rw [varint_cont]; rfl)

/-- Claim C6: encoding `42_i32` produces exactly the two bytes `A0 05`
(tag byte: wire type `Int`, low nibble of `zigzag(42) = 84`, continuation bit
set; then continuation byte `0x05`), and decoding those two bytes as an `i32`
yields 42. -/
theorem claim6_encode_42_i32 :
    serialize_i32 42 = [0xA0, 0x05] ∧ deserialize_i32 [0xA0, 0x05] = .ok (42, []) := by
  constructor
  · have hz : zigzag_encode 42 = 84 := by decide
    rw [serialize_i32, hz, write_varint]
    norm_num [WireType.toNat]
    rw [varint_cont]
    rfl
  · rfl

/-- Counterexample for C5 as stated: the fields of the example structs are
`i32`, so they are zig-zag encoded; `encode(struct{x:1,y:2,z:3})` is not
`1B 08 10 18` (those field bytes would be the unsigned encodings). -/
theorem claim5_counterexample :
    encode_struct3 1 2 3 ≠ [0x1B, 0x08, 0x10, 0x18] := by
  intro h
  have : encode_struct3 1 2 3 = [0x1B, 0x10, 0x20, 0x30] := rfl
  rw [this] at h
  simp at h

/-- Amended C5: encoding the 3-field struct `{x:1_i32, y:2_i32, z:3_i32}`
yields `1B 10 20 30` (zig-zag doubles each small positive field), and decoding
those bytes as the 2-field struct succeeds with `{1,2}` and the extra field
skipped; conversely `encode(struct{x:1,y:2}) = 13 10 20`, and decoding it as
the 3-field struct with `z` defaulted yields `{1,2,0}`. -/
theorem claim5_amended :
    encode_struct3 1 2 3 = [0x1B, 0x10, 0x20, 0x30] ∧
    decode_struct2 [0x1B, 0x10, 0x20, 0x30] = .ok ((1, 2), []) ∧
    encode_struct2 1 2 = [0x13, 0x10, 0x20] ∧
    decode_struct3d [0x13, 0x10, 0x20] = .ok ((1, 2, 0), []) := by
  refine ⟨rfl, ?_, rfl, rfl⟩
  have hstep : decode_struct2 [0x1B, 0x10, 0x20, 0x30] =
      .ok ((1, 2), SeqRead.drop_drain 1 [0x30]) := rfl
  rw [hstep]
  have hsk : Deserializer.skip_state [0x30] = (.ok (), ([] : List Nat)) := by
    have h := skip_state_cons_int_ok 0x30 [] 0 rfl rfl
    simpa using h
  rw [SeqRead.drop_drain, hsk]
  rfl

/-- Claim C7: for inputs whose first tag byte has wire type `Sequence` and
whose length prefix decodes to `n`, map decoding fails with `InvalidMap` iff
`n` is odd, and for even `n` the child reader exposes exactly `n / 2`
key–value entries (`nreturn = n / 2`) over the bytes after the prefix. -/
theorem claim7_map_parity (tagbyte : Nat) (data : List Nat) (n c : Nat)
    (hwt : read_wiretype tagbyte = .Sequence)
    (hrv : read_varint tagbyte data = .ok (n, c)) :
    (deserialize_map_header (tagbyte :: data) = .error .InvalidMap ↔ n % 2 = 1) ∧
    (n % 2 = 0 → deserialize_map_header (tagbyte :: data) = .ok (n, n / 2, data.drop c)) := by
  rw [deserialize_map_header.eq_def]
  simp only [hwt, hrv]
  by_cases h : n % 2 = 0
  · rw [if_neg (by omega)]
    constructor
    · constructor
      · intro hx
        simp at hx
      · intro hx
        omega
    · intro _
      rfl
  · rw [if_pos (by omega)]
    constructor
    · constructor
      · intro _
        omega
      · intro _
        rfl
    · intro hx
      omega

/-- Witness for C7: tag `0x0B` (Sequence, length 1, odd) is rejected with
`InvalidMap`; tag `0x13` (Sequence, length 2) exposes one entry. -/
theorem claim7_map_parity_witness :
    (deserialize_map_header [0x0B] = .error .InvalidMap ↔ 1 % 2 = 1) ∧
    ((2 : Nat) % 2 = 0 →
      deserialize_map_header (0x13 :: [0x10, 0x20]) = .ok (2, 2 / 2, [0x10, 0x20])) := by
  constructor
  · exact (claim7_map_parity 0x0B [] 1 0 rfl rfl).1
  · intro h
    have := (claim7_map_parity 0x13 [0x10, 0x20] 2 0 rfl rfl).2 h
    simpa using this

/-- Claim C8: any tag byte carrying wire-type value 6 or 7 makes `skip` and
every modelled decode operation that dispatches on the wire type fail with
`UnexpectedWireType`. -/
theorem claim8_reserved_wiretypes (tagbyte : Nat) (data : List Nat)
    (h : tagbyte % 8 = 6 ∨ tagbyte % 8 = 7) :
    Deserializer.skip (tagbyte :: data) = .error .UnexpectedWireType ∧
    (∀ t : FTy, decode t (tagbyte :: data) = .error .UnexpectedWireType) ∧
    deserialize_i32 (tagbyte :: data) = .error .UnexpectedWireType ∧
    deserialize_u64_wire (tagbyte :: data) = .error .UnexpectedWireType ∧
    deserialize_i64_wire (tagbyte :: data) = .error .UnexpectedWireType ∧
    deserialize_bytes_wire (tagbyte :: data) = .error .UnexpectedWireType ∧
    deserialize_map_header (tagbyte :: data) = .error .UnexpectedWireType ∧
    deserialize_option_i32 (tagbyte :: data) = .error .UnexpectedWireType ∧
    decode_struct2 (tagbyte :: data) = .error .UnexpectedWireType ∧
    decode_struct3d (tagbyte :: data) = .error .UnexpectedWireType := by
  have hrt : read_wiretype tagbyte = .Reserved1 ∨ read_wiretype tagbyte = .Reserved2 := by
    rcases h with h | h <;> rw [read_wiretype, h]
    · exact Or.inl rfl
    · exact Or.inr rfl
  have hu : deserialize_u64_wire (tagbyte :: data) = .error .UnexpectedWireType := by
    rw [deserialize_u64_wire.eq_def]
    simp only []
    rcases hrt with h' | h' <;> simp [h']
  have hi : deserialize_i64_wire (tagbyte :: data) = .error .UnexpectedWireType := by
    rw [deserialize_i64_wire.eq_def]
    simp only []
    rcases hrt with h' | h' <;> simp [h']
  have hb : deserialize_bytes_wire (tagbyte :: data) = .error .UnexpectedWireType := by
    rw [deserialize_bytes_wire.eq_def]
    simp only []
    rcases hrt with h' | h' <;> simp [h']
  refine ⟨skip_cons_reserved _ _ hrt, ?_, ?_, hu, hi, hb, ?_, ?_, ?_, ?_⟩
  · intro t
    cases t with
    | u64 => rw [decode.eq_def]; simp only []; simp [hu]
    | i64 => rw [decode.eq_def]; simp only []; simp [hi]
    | bool => rw [decode.eq_def]; simp only []; simp [hu]
    | bytesT => rw [decode.eq_def]; simp only []; simp [hb]
    | option t => rw [decode.eq_def]; simp only []; rcases hrt with h' | h' <;> simp [h']
    | tuple ts => rw [decode.eq_def]; simp only []; rcases hrt with h' | h' <;> simp [h']
    | seq t => rw [decode.eq_def]; simp only []; rcases hrt with h' | h' <;> simp [h']
  · rw [deserialize_i32.eq_def]
    simp only []
    rcases hrt with h' | h' <;> simp [h']
  · rw [deserialize_map_header.eq_def]
    simp only []
    rcases hrt with h' | h' <;> simp [h']
  · rw [deserialize_option_i32.eq_def]
    simp only []
    rcases hrt with h' | h' <;> simp [h']
  · rw [decode_struct2.eq_def]
    simp only []
    rcases hrt with h' | h' <;> simp [h']
  · rw [decode_struct3d.eq_def]
    simp only []
    rcases hrt with h' | h' <;> simp [h']

/-- Witness for C8 at tag byte 14 (wire-type value 6) with empty remaining
data. -/
theorem claim8_reserved_wiretypes_witness :
    Deserializer.skip [14] = .error .UnexpectedWireType ∧
    (∀ t : FTy, decode t [14] = .error .UnexpectedWireType) ∧
    deserialize_i32 [14] = .error .UnexpectedWireType ∧
    deserialize_u64_wire [14] = .error .UnexpectedWireType ∧
    deserialize_i64_wire [14] = .error .UnexpectedWireType ∧
    deserialize_bytes_wire [14] = .error .UnexpectedWireType ∧
    deserialize_map_header [14] = .error .UnexpectedWireType ∧
    deserialize_option_i32 [14] = .error .UnexpectedWireType ∧
    decode_struct2 [14] = .error .UnexpectedWireType ∧
    decode_struct3d [14] = .error .UnexpectedWireType :=
  claim8_reserved_wiretypes 14 [] (Or.inl rfl)

/-- Claim C9: when decoding an option, every non-zero Variant discriminant is
treated as `Some` (the decoder recurses into the child value); only
discriminant 0 yields `None`, after skipping one child value. -/
theorem claim9_option_discriminants (d : Nat) (hd0 : d ≠ 0) (hd : d < 2 ^ 64)
    (v : Int) (h0 : -(2 ^ 31) ≤ v) (h1 : v < 2 ^ 31) (rest : List Nat)
    (c : WValue) (hc : WValid c) :
    deserialize_option_i32 (write_varint .Variant d ++ (serialize_i32 v ++ rest)) =
      .ok (some v, rest) ∧
    deserialize_option_i32 (write_varint .Variant 0 ++ (encodeW c ++ rest)) =
      .ok (none, rest) := by
  constructor
  · cases hw : write_varint .Variant d with
    | nil => exact absurd hw (write_varint_ne_nil _ _)
    | cons b bs =>
      simp only [List.cons_append]
      rw [deserialize_option_i32.eq_def]
      simp only []
      rw [read_wiretype_write_varint _ _ _ _ hw]
      simp only []
      rw [read_write_varint _ _ _ _ (serialize_i32 v ++ rest) hd hw]
      simp only []
      rw [List.drop_left]
      rw [if_neg hd0]
      rw [deserialize_i32_write v rest h0 h1]
  · have h5 : write_varint .Variant 0 = [5] := rfl
    rw [h5]
    simp only [List.cons_append, List.nil_append]
    rw [deserialize_option_i32.eq_def]
    simp only []
    have hwt : read_wiretype 5 = .Variant := rfl
    rw [hwt]
    have hrv : read_varint 5 (encodeW c ++ rest) = .ok (0, 0) := rfl
    rw [hrv]
    simp only [List.drop_zero, if_pos rfl]
    rw [skip_encodeW hc rest]
    simp

/-- Witness for C9: discriminant 2 followed by `encode(42_i32)` decodes as
`Some 42`, and discriminant 0 followed by one child decodes as `None`. -/
theorem claim9_option_discriminants_witness :
    deserialize_option_i32 (write_varint .Variant 2 ++ (serialize_i32 42 ++ [])) =
      .ok (some 42, []) ∧
    deserialize_option_i32 (write_varint .Variant 0 ++ (encodeW (.wInt 0) ++ [])) =
      .ok (none, []) :=
  claim9_option_discriminants 2 (by omega) (by norm_num) 42 (by norm_num) (by norm_num)
    [] (.wInt 0) (WValid.int (by norm_num))

/-- Claim C10: child-reader teardown (`Drop for SeqRead`) drains unread
elements one skip at a time; a failing skip discards its error and stops the
drain, teardown itself never surfaces an error, and after a failed drain the
cursor stays wherever the failed skip stopped — possibly strictly inside the
composite.  Concretely: on `[0x8C, 0x02, 0xFF]` (a `Bytes` tag announcing 33
payload bytes with only one available) the drain stops with `[0xFF]` still
unconsumed, and on `[0x80]` the failed skip has already consumed the tag
byte, leaving `[]` (the partial consumption is kept, not rolled back). -/
theorem claim10_drain_best_effort :
    (∀ input : List Nat, SeqRead.drop_drain 0 input = input) ∧
    (∀ n : Nat, ∀ input out : List Nat, ∀ e : Err,
      Deserializer.skip_state input = (.error e, out) →
      SeqRead.drop_drain (n + 1) input = out) ∧
    (∀ n : Nat, ∀ input out : List Nat,
      Deserializer.skip_state input = (.ok (), out) →
      SeqRead.drop_drain (n + 1) input = SeqRead.drop_drain n out) ∧
    SeqRead.drop_drain 1 [0x8C, 0x02, 0xFF] = [0xFF] ∧
    SeqRead.drop_drain 2 [0x80] = [] := by
  have h1 : Deserializer.skip_state [0x8C, 0x02, 0xFF]
      = (.error .UnexpectedEndOfInput, [0xFF]) := by
    have h := skip_state_cons_bytes_err 0x8C [0x02, 0xFF] 33 1 rfl rfl (by simp)
    simpa using h
  have h2 : Deserializer.skip_state [0x80] = (.error .UnexpectedEndOfInput, []) := by
    have h := skip_state_cons_int_err 0x80 [] .UnexpectedEndOfInput rfl rfl
    simpa using h
  refine ⟨fun input => rfl, ?_, ?_, ?_, ?_⟩
  · intro n input out e he
    rw [SeqRead.drop_drain, he]
  · intro n input out ho
    rw [SeqRead.drop_drain, ho]
  · rw [SeqRead.drop_drain, h1]
  · rw [SeqRead.drop_drain, h2]

/-- Witness for C10: the error-discarding branch applied at the concrete
truncated `Bytes` value, keeping the failed skip's partial consumption. -/
theorem claim10_drain_best_effort_witness :
    SeqRead.drop_drain 1 [0x8C, 0x02, 0xFF] = [0xFF] :=
  claim10_drain_best_effort.2.1 0 [0x8C, 0x02, 0xFF] [0xFF] .UnexpectedEndOfInput
    (by
      have h := skip_state_cons_bytes_err 0x8C [0x02, 0xFF] 33 1 rfl rfl (by simp)
      simpa using h)

/-- Full characterization of the 64-bit varint accumulation loop: with
`shift = 4 + 7 * consumed`, the loop overflows exactly when the shift check
trips before a stop byte (`9 - consumed` leading continuation bytes and at
least one byte after them), runs out of input when all bytes are continuation
bytes within bounds, and otherwise stops at the first stop byte returning the
accumulated 7-bit groups reduced modulo `2 ^ 64`. -/
theorem read_varint_loop_spec (data : List Nat) : ∀ value consumed : Nat,
    value < 2 ^ 64 → consumed ≤ 9 →
    ((9 - consumed ≤ leadCont data ∧ 9 - consumed < data.length) →
      read_varint_loop data value (4 + 7 * consumed) consumed = .error .ValueOverflow) ∧
    ((leadCont data = data.length ∧ consumed + data.length ≤ 9) →
      read_varint_loop data value (4 + 7 * consumed) consumed = .error .UnexpectedEndOfInput) ∧
    ((consumed + leadCont data ≤ 8 ∧ leadCont data < data.length) →
      read_varint_loop data value (4 + 7 * consumed) consumed =
        .ok ((value + varint_payload_cont (data.take (leadCont data + 1)) (4 + 7 * consumed)) % 2 ^ 64,
          consumed + (leadCont data + 1))) := by
  induction data with
  | nil =>
    intro value consumed hval hcons
    refine ⟨?_, ?_, ?_⟩
    · rintro ⟨-, h2⟩
      simp at h2
    · rintro ⟨-, -⟩
      rw [read_varint_loop]
    · rintro ⟨-, h2⟩
      simp at h2
  | cons b rest ih =>
    intro value consumed hval hcons
    rw [read_varint_loop]
    by_cases hc9 : 64 ≤ 4 + 7 * consumed
    · rw [if_pos hc9]
      refine ⟨fun _ => rfl, ?_, ?_⟩
      · rintro ⟨-, h2⟩
        simp only [List.length_cons] at h2
        omega
      · rintro ⟨h1, -⟩
        omega
    · rw [if_neg hc9]
      by_cases hb : b % 256 < 128
      · rw [if_pos hb]
        have hlC : leadCont (b :: rest) = 0 := by rw [leadCont, if_pos hb]
        refine ⟨?_, ?_, ?_⟩
        · rintro ⟨h1, -⟩
          rw [hlC] at h1
          omega
        · rintro ⟨h1, -⟩
          rw [hlC] at h1
          simp only [List.length_cons] at h1
          omega
        · rintro ⟨-, -⟩
          rw [hlC]
          simp only [Nat.zero_add, List.take_succ_cons, List.take_zero]
          rw [varint_payload_cont, varint_payload_cont]
          have hbm : b % 128 = b % 256 := by omega
          rw [hbm]
          simp
      · rw [if_neg hb]
        have hsh : 4 + 7 * consumed + 7 = 4 + 7 * (consumed + 1) := by ring
        rw [hsh]
        have hlC : leadCont (b :: rest) = leadCont rest + 1 := by rw [leadCont, if_neg hb]
        rw [hlC]
        have ih' := ih ((value + b % 128 * 2 ^ (4 + 7 * consumed)) % 2 ^ 64) (consumed + 1)
          (Nat.mod_lt _ (by norm_num)) (by omega)
        refine ⟨?_, ?_, ?_⟩
        · rintro ⟨h1, h2⟩
          simp only [List.length_cons] at h2
          exact ih'.1 ⟨by omega, by omega⟩
        · rintro ⟨h1, h2⟩
          simp only [List.length_cons] at h1 h2
          exact ih'.2.1 ⟨by omega, by omega⟩
        · rintro ⟨h1, h2⟩
          simp only [List.length_cons] at h2
          rw [ih'.2.2 ⟨by omega, by omega⟩]
          rw [List.take_succ_cons]
          rw [varint_payload_cont]
          rw [Nat.mod_add_mod]
          simp only [Prod.mk.injEq, Except.ok.injEq]
          refine ⟨?_, by omega⟩
          congr 1
          ring

/-- Characterization of the 128-bit varint accumulation loop (overflow check
at shift 128, i.e. after 18 continuation bytes). -/
theorem read_varint_128_loop_spec (data : List Nat) : ∀ value consumed : Nat,
    value < 2 ^ 128 → consumed ≤ 18 →
    ((18 - consumed ≤ leadCont data ∧ 18 - consumed < data.length) →
      read_varint_128_loop data value (4 + 7 * consumed) consumed = .error .ValueOverflow) ∧
    ((leadCont data = data.length ∧ consumed + data.length ≤ 18) →
      read_varint_128_loop data value (4 + 7 * consumed) consumed = .error .UnexpectedEndOfInput) ∧
    ((consumed + leadCont data ≤ 17 ∧ leadCont data < data.length) →
      read_varint_128_loop data value (4 + 7 * consumed) consumed =
        .ok ((value + varint_payload_cont (data.take (leadCont data + 1)) (4 + 7 * consumed)) % 2 ^ 128,
          consumed + (leadCont data + 1))) := by
  induction data with
  | nil =>
    intro value consumed hval hcons
    refine ⟨?_, ?_, ?_⟩
    · rintro ⟨-, h2⟩
      simp at h2
    · rintro ⟨-, -⟩
      rw [read_varint_128_loop]
    · rintro ⟨-, h2⟩
      simp at h2
  | cons b rest ih =>
    intro value consumed hval hcons
    rw [read_varint_128_loop]
    by_cases hc18 : 128 ≤ 4 + 7 * consumed
    · rw [if_pos hc18]
      refine ⟨fun _ => rfl, ?_, ?_⟩
      · rintro ⟨-, h2⟩
        simp only [List.length_cons] at h2
        omega
      · rintro ⟨h1, -⟩
        omega
    · rw [if_neg hc18]
      by_cases hb : b % 256 < 128
      · rw [if_pos hb]
        have hlC : leadCont (b :: rest) = 0 := by rw [leadCont, if_pos hb]
        refine ⟨?_, ?_, ?_⟩
        · rintro ⟨h1, -⟩
          rw [hlC] at h1
          omega
        · rintro ⟨h1, -⟩
          rw [hlC] at h1
          simp only [List.length_cons] at h1
          omega
        · rintro ⟨-, -⟩
          rw [hlC]
          simp only [Nat.zero_add, List.take_succ_cons, List.take_zero]
          rw [varint_payload_cont, varint_payload_cont]
          have hbm : b % 128 = b % 256 := by omega
          rw [hbm]
          simp
      · rw [if_neg hb]
        have hsh : 4 + 7 * consumed + 7 = 4 + 7 * (consumed + 1) := by ring
        rw [hsh]
        have hlC : leadCont (b :: rest) = leadCont rest + 1 := by rw [leadCont, if_neg hb]
        rw [hlC]
        have ih' := ih ((value + b % 128 * 2 ^ (4 + 7 * consumed)) % 2 ^ 128) (consumed + 1)
          (Nat.mod_lt _ (by norm_num)) (by omega)
        refine ⟨?_, ?_, ?_⟩
        · rintro ⟨h1, h2⟩
          simp only [List.length_cons] at h2
          exact ih'.1 ⟨by omega, by omega⟩
        · rintro ⟨h1, h2⟩
          simp only [List.length_cons] at h1 h2
          exact ih'.2.1 ⟨by omega, by omega⟩
        · rintro ⟨h1, h2⟩
          simp only [List.length_cons] at h2
          rw [ih'.2.2 ⟨by omega, by omega⟩]
          rw [List.take_succ_cons]
          rw [varint_payload_cont]
          rw [Nat.mod_add_mod]
          simp only [Prod.mk.injEq, Except.ok.injEq]
          refine ⟨?_, by omega⟩
          congr 1
          ring

/-- Counterexample for C3 as stated: the 10-byte encoding whose final byte is
`0x10` (payload bit 64 set) has mathematical payload `2 ^ 64`, exceeding 64
bits of data, yet `read_varint` accepts it, returning the payload silently
truncated modulo `2 ^ 64` (here 0) instead of `ValueOverflow`. -/
theorem claim3_counterexample :
    varint_payload 0x80 [0x80, 0x80, 0x80, 0x80, 0x80, 0x80, 0x80, 0x80, 0x10]
        = 2 ^ 64 ∧
    read_varint 0x80 [0x80, 0x80, 0x80, 0x80, 0x80, 0x80, 0x80, 0x80, 0x10]
        = .ok (0, 9) ∧
    read_varint 0x80 [0x80, 0x80, 0x80, 0x80, 0x80, 0x80, 0x80, 0x80, 0x10]
        ≠ .error .ValueOverflow := by
  have h9 : read_varint 0x80 [0x80, 0x80, 0x80, 0x80, 0x80, 0x80, 0x80, 0x80, 0x10]
      = .ok (0, 9) := rfl
  refine ⟨rfl, h9, ?_⟩
  rw [h9]
  simp

/-- Amended C3: for a tag byte with the continuation bit set, `read_varint`
returns `ValueOverflow` exactly when the shift counter reaches 64 before the
stop bit, i.e. when at least 9 continuation bytes are followed by a further
byte; when the stop byte arrives within the first 9 bytes the read *succeeds*
and returns the payload reduced modulo `2 ^ 64` (a 10-byte encoding whose
final byte has upper payload bits set is silently truncated, not rejected).
The 128-bit path behaves analogously with the overflow threshold at 18
continuation bytes and truncation modulo `2 ^ 128`. -/
theorem claim3_amended (tagbyte : Nat) (data : List Nat)
    (hcont : ¬ tagbyte % 256 < 128) :
    ((9 ≤ leadCont data ∧ 10 ≤ data.length) →
      read_varint tagbyte data = .error .ValueOverflow) ∧
    ((leadCont data ≤ 8 ∧ leadCont data < data.length) →
      read_varint tagbyte data =
        .ok (varint_payload tagbyte (data.take (leadCont data + 1)) % 2 ^ 64,
          leadCont data + 1)) ∧
    ((18 ≤ leadCont data ∧ 19 ≤ data.length) →
      read_varint_128 tagbyte data = .error .ValueOverflow) ∧
    ((leadCont data ≤ 17 ∧ leadCont data < data.length) →
      read_varint_128 tagbyte data =
        .ok (varint_payload tagbyte (data.take (leadCont data + 1)) % 2 ^ 128,
          leadCont data + 1)) := by
  have hv0 : (tagbyte % 128) / 8 < 2 ^ 128 := by omega
  have hv0' : (tagbyte % 128) / 8 < 2 ^ 64 := by omega
  have h64 := read_varint_loop_spec data ((tagbyte % 128) / 8) 0 hv0' (by omega)
  have h128 := read_varint_128_loop_spec data ((tagbyte % 128) / 8) 0 hv0 (by omega)
  refine ⟨?_, ?_, ?_, ?_⟩
  · rintro ⟨h1, h2⟩
    rw [read_varint, if_neg hcont]
    exact h64.1 ⟨by omega, by omega⟩
  · rintro ⟨h1, h2⟩
    rw [read_varint, if_neg hcont]
    rw [h64.2.2 ⟨by omega, by omega⟩]
    rw [varint_payload]
    simp
  · rintro ⟨h1, h2⟩
    rw [read_varint_128, if_neg hcont]
    exact h128.1 ⟨by omega, by omega⟩
  · rintro ⟨h1, h2⟩
    rw [read_varint_128, if_neg hcont]
    rw [h128.2.2 ⟨by omega, by omega⟩]
    rw [varint_payload]
    simp

/-- Witness for the amended C3: ten continuation bytes overflow the 64-bit
reader, and the truncating 10-byte input from the counterexample is accepted
with value `2 ^ 64 % 2 ^ 64 = 0`. -/
theorem claim3_amended_witness :
    read_varint 0x80 [0x80, 0x80, 0x80, 0x80, 0x80, 0x80, 0x80, 0x80, 0x80, 0x80]
        = .error .ValueOverflow ∧
    read_varint 0x80 [0x80, 0x80, 0x80, 0x80, 0x80, 0x80, 0x80, 0x80, 0x10] =
      .ok (varint_payload 0x80
        (([0x80, 0x80, 0x80, 0x80, 0x80, 0x80, 0x80, 0x80, 0x10] : List Nat).take
          (leadCont [0x80, 0x80, 0x80, 0x80, 0x80, 0x80, 0x80, 0x80, 0x10] + 1)) % 2 ^ 64,
        leadCont [0x80, 0x80, 0x80, 0x80, 0x80, 0x80, 0x80, 0x80, 0x10] + 1) :=
  ⟨(claim3_amended 0x80 _ (by norm_num)).1 ⟨by decide, by decide⟩,
   (claim3_amended 0x80 _ (by norm_num)).2.1 ⟨by decide, by decide⟩⟩

end Fcode
